import Mathlib

/-!
# IRtracking: blob detection and the frame hand-off

A shallow embedding of `detect_blobs` (`src/tracker_c.c`) and of the frame
hand-off between the capture loop and the detection thread (`src/main.cpp`).

`detect_blobs` is embedded twice, from the same source lines.

* `detect_blobs` computes in unbounded integers (`Int`) and takes the two
  scratch allocations as granted.  It describes the executions in which no
  `int` overflows and no allocation is refused.
* `detect_blobs32` reduces every `int` operation to 32 bits (two's
  complement, as the compiled code does) and has the two allocations of lines
  16-24 with their failure returns.  Within `Fits` it reports what
  `detect_blobs` reports, with the centroids computed from the coordinate sums
  reduced to 32 bits (`detect_blobs32_spec`).

In both, a C array is a `List` and every array access of the source is a
checked access (`load`, `store`): an access outside the array makes the whole
call `none`.  A division by zero and running out of loop fuel make the call
`none` as well.  So a result `some r` says that the call ran to completion
without leaving any array.
-/

namespace IRtracking

/-! ## Data model (`tracker_c.h`, `tracker_c.c`) -/

/-- The `Point` structure of `tracker_c.c`: an entry of the flood-fill queue. -/
structure Point where
  x : Int
  y : Int
  deriving DecidableEq, Repr

/-- The `Blob` structure of `tracker_c.h`: centroid and pixel count. -/
structure Blob where
  x : Int
  y : Int
  area : Int
  deriving DecidableEq, Repr

/-- The array `dx` of `detect_blobs`: x offsets of the 8 neighbours. -/
def dx : List Int := [-1, 0, 1, -1, 1, -1, 0, 1]

/-- The array `dy` of `detect_blobs`: y offsets of the 8 neighbours. -/
def dy : List Int := [-1, -1, -1, 0, 0, 1, 1, 1]

/-- Checked array read `a[i]`: `none` when `i` is outside the array. -/
def load {α : Type} (a : List α) (i : Int) : Option α :=
  if 0 ≤ i then a[i.toNat]? else none

/-- Checked array write `a[i] = v`: `none` when `i` is outside the array. -/
def store {α : Type} (a : List α) (i : Int) (v : α) : Option (List α) :=
  if 0 ≤ i ∧ i.toNat < a.length then some (a.set i.toNat v) else none

/-- The local state of one flood fill: the `visited` array, the written part
`queue[0 .. queue_end)` of the queue (so `queue_end` is `queue.length`),
`queue_start`, and the three accumulators. -/
structure Fill where
  visited : List Bool
  queue : List Point
  queue_start : Nat
  sum_x : Int
  sum_y : Int
  count : Int

/-- One iteration of `for (int d = 0; d < 8; d++)` for the dequeued point `p`
(lines 57-72).  The queue array has `width * height` entries, so the write
`queue[queue_end++]` is inside it only while `queue_end < width * height`. -/
def neighbor (gray : List Nat) (width height step threshold : Int)
    (p : Point) (s : Fill) (d : Nat) : Option Fill :=
  match load dx d, load dy d with
  | some ox, some oy =>
    let nx := p.x + ox
    let ny := p.y + oy
    if nx < 0 ∨ nx ≥ width ∨ ny < 0 ∨ ny ≥ height then some s
    else
      let nindex := ny * width + nx
      match load s.visited nindex with
      | none => none
      | some true => some s
      | some false =>
        match load gray (ny * step + nx) with
        | none => none
        | some npixel =>
          if (npixel : Int) > threshold then
            match store s.visited nindex true with
            | none => none
            | some v =>
              if (s.queue.length : Int) < width * height then
                some { s with visited := v, queue := s.queue ++ [⟨nx, ny⟩] }
              else none
          else
            match store s.visited nindex true with
            | none => none
            | some v => some { s with visited := v }
  | _, _ => none

/-- The loop `while (queue_start < queue_end)` (lines 50-73), with fuel. -/
def flood (gray : List Nat) (width height step threshold : Int) :
    Nat → Fill → Option Fill
  | 0, s => if s.queue_start < s.queue.length then none else some s
  | fuel + 1, s =>
    if s.queue_start < s.queue.length then
      match s.queue[s.queue_start]? with
      | none => none
      | some p =>
        let s1 : Fill :=
          { s with queue_start := s.queue_start + 1, sum_x := s.sum_x + p.x,
                   sum_y := s.sum_y + p.y, count := s.count + 1 }
        match (List.range 8).foldlM (neighbor gray width height step threshold p) s1 with
        | none => none
        | some s2 => flood gray width height step threshold fuel s2
    else some s

/-- The state carried by the raster scan: the `visited` array, the caller's
output array `blobs`, and `num_blobs`. -/
structure Scan where
  visited : List Bool
  blobs : List Blob
  num_blobs : Nat

/-- The body of the two `for` loops at pixel `(x, y)` (lines 33-82).  The first
queue write `queue[0]` (line 44) is inside the queue only when
`0 < width * height`.  The flood fill gets `width * height` units of fuel, one
for each queue entry. -/
def pixel_step (gray : List Nat) (width height step threshold min_area max_area : Int)
    (max_blobs : Int) (y x : Int) (s : Scan) : Option Scan :=
  let index := y * width + x
  match load s.visited index with
  | none => none
  | some true => some s
  | some false =>
    match load gray (y * step + x) with
    | none => none
    | some pixel =>
      if (pixel : Int) ≤ threshold then
        match store s.visited index true with
        | none => none
        | some v => some { s with visited := v }
      else
        if (0 : Int) < width * height then
          match store s.visited index true with
          | none => none
          | some v =>
            match flood gray width height step threshold (width * height).toNat
                ⟨v, [⟨x, y⟩], 0, 0, 0, 0⟩ with
            | none => none
            | some f =>
              if f.count ≥ min_area ∧ f.count ≤ max_area then
                if (s.num_blobs : Int) < max_blobs then
                  if f.count = 0 then none
                  else
                    match store s.blobs s.num_blobs
                        ⟨Int.tdiv f.sum_x f.count, Int.tdiv f.sum_y f.count, f.count⟩ with
                    | none => none
                    | some b => some ⟨f.visited, b, s.num_blobs + 1⟩
                else some { s with visited := f.visited }
              else some { s with visited := f.visited }
        else none

/-- The inner loop `for (int x = 0; x < width; x++)` of row `y`. -/
def scan_row (gray : List Nat) (width height step threshold min_area max_area : Int)
    (max_blobs : Int) (s : Scan) (y : Nat) : Option Scan :=
  (List.range width.toNat).foldlM
    (fun (s : Scan) (x : Nat) =>
      pixel_step gray width height step threshold min_area max_area max_blobs (y : Int) (x : Int) s) s

/-- The function `detect_blobs` of `tracker_c.c`.  `blobs` is the caller's
output array as it is before the call; the result is that array after the call
together with the returned `num_blobs`. -/
def detect_blobs (gray : List Nat) (width height step threshold min_area max_area : Int)
    (blobs : List Blob) (max_blobs : Int) : Option (List Blob × Int) :=
  let size := width * height
  let visited := List.replicate size.toNat false
  match (List.range height.toNat).foldlM
      (scan_row gray width height step threshold min_area max_area max_blobs)
      ⟨visited, blobs, 0⟩ with
  | none => none
  | some s => some (s.blobs, s.num_blobs)

/-- The blobs a call reports: the first `num_blobs` entries of the output
array (what `main.cpp` keeps by `localBlobs.resize(num_blobs)`). -/
def detected (gray : List Nat) (width height step threshold min_area max_area : Int)
    (blobs : List Blob) (max_blobs : Int) : Option (List Blob) :=
  (detect_blobs gray width height step threshold min_area max_area blobs max_blobs).map
    fun r => r.1.take r.2.toNat

/-- The pixel `p` lies inside the `width × height` image. -/
def InImage (width height : Int) (p : Point) : Prop :=
  0 ≤ p.x ∧ p.x < width ∧ 0 ≤ p.y ∧ p.y < height

/-- The intensity stored for pixel `p` in a buffer with row stride `step`. -/
def intensity (gray : List Nat) (step : Int) (p : Point) : Int :=
  ((gray.getD (p.y * step + p.x).toNat 0 : Nat) : Int)

/-- Foreground pixels: inside the image, intensity strictly above the threshold. -/
def Foreground (gray : List Nat) (width height step threshold : Int) (p : Point) : Prop :=
  InImage width height p ∧ threshold < intensity gray step p

/-- Two different pixels that touch by a side or by a corner. -/
def Adj8 (p q : Point) : Prop :=
  p ≠ q ∧ -1 ≤ q.x - p.x ∧ q.x - p.x ≤ 1 ∧ -1 ≤ q.y - p.y ∧ q.y - p.y ≤ 1

/-- One step between 8-adjacent foreground pixels. -/
def Link (gray : List Nat) (width height step threshold : Int) (p q : Point) : Prop :=
  Foreground gray width height step threshold p ∧
  Foreground gray width height step threshold q ∧ Adj8 p q

/-- The pixel `q` is reached from `p` by a path of 8-adjacent foreground pixels. -/
def Connected8 (gray : List Nat) (width height step threshold : Int) (p q : Point) : Prop :=
  Relation.ReflTransGen (Link gray width height step threshold) p q

/-- Row-major order on pixels: smaller `y` first, then smaller `x`. -/
def RasterLt (p q : Point) : Prop := p.y < q.y ∨ (p.y = q.y ∧ p.x < q.x)

/-- The preconditions on the image: the sizes are not negative, the stride is
at least the width, and the buffer holds every row up to its last pixel. -/
def ImageOk (gray : List Nat) (width height step : Int) : Prop :=
  0 ≤ width ∧ 0 ≤ height ∧ width ≤ step ∧
    (0 < height → step * (height - 1) + width ≤ (gray.length : Int))

/-- Pixel `p` is marked in the `visited` array `v`. -/
def Marked (width : Int) (v : List Bool) (p : Point) : Prop :=
  load v (p.y * width + p.x) = some true

/-- The pixels of the image in the order of the two `for` loops. -/
def raster (width height : Int) : List Point :=
  (List.range height.toNat).flatMap fun (y : Nat) =>
    (List.range width.toNat).map fun (x : Nat) => Point.mk (x : Int) (y : Int)


/-! ## Proof vocabulary for the flood fill -/

/-- The 8 neighbours of `p` in the order of the arrays `dx`, `dy`. -/
def neighbors (p : Point) : List Point :=
  (List.zip dx dy).map fun o => ⟨p.x + o.1, p.y + o.2⟩

/-- The body of the neighbour loop for the neighbour `n = (nx, ny)`: what
`neighbor` does once the two offsets are read. -/
def visit (gray : List Nat) (width height step threshold : Int)
    (s : Fill) (n : Point) : Option Fill :=
  if n.x < 0 ∨ n.x ≥ width ∨ n.y < 0 ∨ n.y ≥ height then some s
  else
    match load s.visited (n.y * width + n.x) with
    | none => none
    | some true => some s
    | some false =>
      match load gray (n.y * step + n.x) with
      | none => none
      | some npixel =>
        if (npixel : Int) > threshold then
          match store s.visited (n.y * width + n.x) true with
          | none => none
          | some v =>
            if (s.queue.length : Int) < width * height then
              some { s with visited := v, queue := s.queue ++ [n] }
            else none
        else
          match store s.visited (n.y * width + n.x) true with
          | none => none
          | some v => some { s with visited := v }

/-- Invariant of one flood fill started at the seed `s0` on the array `v0`. -/
structure FillInv (gray : List Nat) (width height step threshold : Int)
    (v0 : List Bool) (s0 : Point) (f : Fill) : Prop where
  len : f.visited.length = (width * height).toNat
  mono : ∀ q, InImage width height q → Marked width v0 q → Marked width f.visited q
  fg_marked : ∀ q, Foreground gray width height step threshold q →
    (Marked width f.visited q ↔ Marked width v0 q ∨ q ∈ f.queue)
  nodup : f.queue.Nodup
  members : ∀ q ∈ f.queue, Foreground gray width height step threshold q ∧
    ¬ Marked width v0 q ∧ Connected8 gray width height step threshold s0 q
  seed : s0 ∈ f.queue
  start_le : f.queue_start ≤ f.queue.length
  sum_x_eq : f.sum_x = ((f.queue.take f.queue_start).map Point.x).sum
  sum_y_eq : f.sum_y = ((f.queue.take f.queue_start).map Point.y).sum
  count_eq : f.count = (f.queue_start : Int)

/-- The first `k` queue entries have all their foreground neighbours marked. -/
def Explored (gray : List Nat) (width height step threshold : Int) (f : Fill) (k : Nat) : Prop :=
  ∀ q ∈ f.queue.take k, ∀ n, Foreground gray width height step threshold n → Adj8 q n →
    Marked width f.visited n

/-! ## Proof vocabulary for the raster scan -/

/-- The part of `pixel_step` that works on `visited`: the array after the
pixel, and the finished flood fill when the pixel started one. -/
def seed_step (gray : List Nat) (width height step threshold : Int)
    (y x : Int) (v : List Bool) : Option (List Bool × Option Fill) :=
  match load v (y * width + x) with
  | none => none
  | some true => some (v, none)
  | some false =>
    match load gray (y * step + x) with
    | none => none
    | some pixel =>
      if (pixel : Int) ≤ threshold then
        match store v (y * width + x) true with
        | none => none
        | some v1 => some (v1, none)
      else
        if (0 : Int) < width * height then
          match store v (y * width + x) true with
          | none => none
          | some v1 =>
            match flood gray width height step threshold (width * height).toNat
                ⟨v1, [⟨x, y⟩], 0, 0, 0, 0⟩ with
            | none => none
            | some f => some (f.visited, some f)
        else none

/-- The blob `pixel_step` writes for a finished flood fill. -/
def blob_of (f : Fill) : Blob :=
  ⟨Int.tdiv f.sum_x f.count, Int.tdiv f.sum_y f.count, f.count⟩

/-- The part of `pixel_step` that works on the output array (lines 75-82). -/
def record (min_area max_area max_blobs : Int) (out : List Blob × Nat) (f : Fill) :
    Option (List Blob × Nat) :=
  if f.count ≥ min_area ∧ f.count ≤ max_area then
    if (out.2 : Int) < max_blobs then
      if f.count = 0 then none
      else
        match store out.1 out.2 (blob_of f) with
        | none => none
        | some b => some (b, out.2 + 1)
    else some out
  else some out

/-- The raster scan with the output array left out: the final `visited` array
and, in scan order, every seed pixel with its finished flood fill. -/
def trace_scan (gray : List Nat) (width height step threshold : Int) :
    List Point → List Bool → Option (List Bool × List (Point × Fill))
  | [], v => some (v, [])
  | p :: ps, v =>
    match seed_step gray width height step threshold p.y p.x v with
    | none => none
    | some (v1, none) => trace_scan gray width height step threshold ps v1
    | some (v1, some f) =>
      match trace_scan gray width height step threshold ps v1 with
      | none => none
      | some (v2, tr) => some (v2, (p, f) :: tr)

/-- The finished flood fill `f` holds exactly the 8-connected foreground
component of its seed `s0`, with its pixel count and coordinate sums, and the
seed is the first pixel of the component in raster order. -/
structure IsComponent (gray : List Nat) (width height step threshold : Int)
    (s0 : Point) (f : Fill) : Prop where
  seed_fg : Foreground gray width height step threshold s0
  nodup : f.queue.Nodup
  mem_iff : ∀ q, q ∈ f.queue ↔ Connected8 gray width height step threshold s0 q
  count_eq : f.count = (f.queue.length : Int)
  sum_x_eq : f.sum_x = (f.queue.map Point.x).sum
  sum_y_eq : f.sum_y = (f.queue.map Point.y).sum
  least : ∀ q, Connected8 gray width height step threshold s0 q → q = s0 ∨ RasterLt s0 q

/-- Invariant of the raster scan after the pixels `pre`, with `tr` the seeds
and flood fills found so far. -/
structure ScanInv (gray : List Nat) (width height step threshold : Int)
    (pre : List Point) (v : List Bool) (tr : List (Point × Fill)) : Prop where
  len : v.length = (width * height).toNat
  pre_marked : ∀ p ∈ pre, Marked width v p
  cover : ∀ q, Foreground gray width height step threshold q →
    (Marked width v q ↔ ∃ e ∈ tr, q ∈ e.2.queue)
  comps : ∀ e ∈ tr, e.1 ∈ pre ∧ IsComponent gray width height step threshold e.1 e.2
  sorted : tr.Pairwise fun a b => RasterLt a.1 b.1

/-- The blobs that pass the area filter, in scan order. -/
def kept (min_area max_area : Int) (fs : List Fill) : List Blob :=
  (fs.map blob_of).filter fun b => decide (min_area ≤ b.area ∧ b.area ≤ max_area)

/-! ## Vocabulary of the claims -/

/-- The blob `b` describes the whole 8-connected foreground component of the
foreground pixel `s`: its area is the number of pixels of the component and
its centroid is the truncated mean of their coordinates. -/
def Describes (gray : List Nat) (width height step threshold : Int) (s : Point) (b : Blob) :
    Prop :=
  Foreground gray width height step threshold s ∧
  ∃ comp : Finset Point,
    (∀ q, q ∈ comp ↔ Connected8 gray width height step threshold s q) ∧
    b.area = (comp.card : Int) ∧
    b.x = Int.tdiv (∑ q ∈ comp, q.x) (comp.card : Int) ∧
    b.y = Int.tdiv (∑ q ∈ comp, q.y) (comp.card : Int)

/-- The pixel `s` is the first pixel of its component in raster order. -/
def RasterLeast (gray : List Nat) (width height step threshold : Int) (s : Point) : Prop :=
  ∀ q, Connected8 gray width height step threshold s q → q = s ∨ RasterLt s q

/-- The area test of line 75, on the seeds and flood fills of a trace. -/
def passes (min_area max_area : Int) (e : Point × Fill) : Bool :=
  decide (min_area ≤ e.2.count ∧ e.2.count ≤ max_area)

/-- A 2×2 image whose only pixel above 5 is the pixel (1,0). -/
def dot_image : List Nat := [0, 9, 0, 0]

/-- The value of an `int` operation whose exact result is `i`: `i` reduced to
32 bits, two's complement. -/
def wrap32 (i : Int) : Int := (i + 2147483648) % 4294967296 - 2147483648

/-- One iteration of the neighbour loop (lines 57-72) in 32-bit arithmetic;
`cap` is the number of `Point`s the queue array holds. -/
def neighbor32 (gray : List Nat) (width height step threshold : Int) (cap : Nat)
    (p : Point) (s : Fill) (d : Nat) : Option Fill :=
  match load dx d, load dy d with
  | some ox, some oy =>
    let nx := wrap32 (p.x + ox)
    let ny := wrap32 (p.y + oy)
    if nx < 0 ∨ nx ≥ width ∨ ny < 0 ∨ ny ≥ height then some s
    else
      let nindex := wrap32 (wrap32 (ny * width) + nx)
      match load s.visited nindex with
      | none => none
      | some true => some s
      | some false =>
        match load gray (wrap32 (wrap32 (ny * step) + nx)) with
        | none => none
        | some npixel =>
          if (npixel : Int) > threshold then
            match store s.visited nindex true with
            | none => none
            | some v =>
              if s.queue.length < cap then
                some { s with visited := v, queue := s.queue ++ [⟨nx, ny⟩] }
              else none
          else
            match store s.visited nindex true with
            | none => none
            | some v => some { s with visited := v }
  | _, _ => none

/-- The loop `while (queue_start < queue_end)` (lines 50-73) in 32-bit
arithmetic, with fuel. -/
def flood32 (gray : List Nat) (width height step threshold : Int) (cap : Nat) :
    Nat → Fill → Option Fill
  | 0, s => if s.queue_start < s.queue.length then none else some s
  | fuel + 1, s =>
    if s.queue_start < s.queue.length then
      match s.queue[s.queue_start]? with
      | none => none
      | some p =>
        let s1 : Fill :=
          { s with queue_start := s.queue_start + 1, sum_x := wrap32 (s.sum_x + p.x),
                   sum_y := wrap32 (s.sum_y + p.y), count := wrap32 (s.count + 1) }
        match (List.range 8).foldlM (neighbor32 gray width height step threshold cap p) s1 with
        | none => none
        | some s2 => flood32 gray width height step threshold cap fuel s2
    else some s

/-- The body of the two `for` loops at pixel `(x, y)` (lines 33-82) in 32-bit
arithmetic.  The flood fill gets `cap` units of fuel, one for each queue
entry. -/
def pixel_step32 (gray : List Nat) (width height step threshold min_area max_area : Int)
    (max_blobs : Int) (cap : Nat) (y x : Int) (s : Scan) : Option Scan :=
  let index := wrap32 (wrap32 (y * width) + x)
  match load s.visited index with
  | none => none
  | some true => some s
  | some false =>
    match load gray (wrap32 (wrap32 (y * step) + x)) with
    | none => none
    | some pixel =>
      if (pixel : Int) ≤ threshold then
        match store s.visited index true with
        | none => none
        | some v => some { s with visited := v }
      else
        if 0 < cap then
          match store s.visited index true with
          | none => none
          | some v =>
            match flood32 gray width height step threshold cap cap
                ⟨v, [⟨x, y⟩], 0, 0, 0, 0⟩ with
            | none => none
            | some f =>
              if f.count ≥ min_area ∧ f.count ≤ max_area then
                if (s.num_blobs : Int) < max_blobs then
                  if f.count = 0 then none
                  else
                    match store s.blobs s.num_blobs
                        ⟨Int.tdiv f.sum_x f.count, Int.tdiv f.sum_y f.count, f.count⟩ with
                    | none => none
                    | some b => some ⟨f.visited, b, s.num_blobs + 1⟩
                else some { s with visited := f.visited }
              else some { s with visited := f.visited }
        else none

/-- The inner loop `for (int x = 0; x < width; x++)` of row `y`, 32-bit. -/
def scan_row32 (gray : List Nat) (width height step threshold min_area max_area : Int)
    (max_blobs : Int) (cap : Nat) (s : Scan) (y : Nat) : Option Scan :=
  (List.range width.toNat).foldlM
    (fun (s : Scan) (x : Nat) =>
      pixel_step32 gray width height step threshold min_area max_area max_blobs cap
        (y : Int) (x : Int) s) s

/-- The function `detect_blobs` of `tracker_c.c` in 32-bit arithmetic.
`size` is the 32-bit product; `calloc` is asked for `(size_t)size` bytes and
`malloc` for `size * sizeof(Point)` bytes (64-bit unsigned arithmetic); a
refused request returns 0 blobs (lines 17 and 21-24) and leaves the output
array as it was. -/
def detect_blobs32 (heap : Nat) (gray : List Nat)
    (width height step threshold min_area max_area : Int)
    (blobs : List Blob) (max_blobs : Int) : Option (List Blob × Int) :=
  let size := wrap32 (width * height)
  let visited_bytes := (size % 18446744073709551616).toNat
  if heap < visited_bytes then some (blobs, 0)
  else
    let queue_bytes := (size * 8 % 18446744073709551616).toNat
    if heap < queue_bytes then some (blobs, 0)
    else
      let visited := List.replicate visited_bytes false
      match (List.range height.toNat).foldlM
          (scan_row32 gray width height step threshold min_area max_area max_blobs
            (queue_bytes / 8))
          ⟨visited, blobs, 0⟩ with
      | none => none
      | some s => some (s.blobs, s.num_blobs)

/-- The blobs a 32-bit call reports: the first `num_blobs` entries of the
output array. -/
def detected32 (heap : Nat) (gray : List Nat)
    (width height step threshold min_area max_area : Int)
    (blobs : List Blob) (max_blobs : Int) : Option (List Blob) :=
  (detect_blobs32 heap gray width height step threshold min_area max_area blobs max_blobs).map
    fun r => r.1.take r.2.toNat

/-- The image is small enough for 32-bit arithmetic and the allocator: the
pixel count is at most `INT_MAX`, every pixel offset `y * step + x` is at most
`INT_MAX`, and the allocator grants the queue of `8 * width * height` bytes. -/
structure Fits (heap : Nat) (width height step : Int) : Prop where
  size_le : width * height ≤ 2147483647
  extent_le : step * (height - 1) + width ≤ 2147483648
  heap_le : 8 * (width * height) ≤ (heap : Int)

/-- A flood fill with its two sums reduced to 32 bits. -/
def Fill.wrapped (f : Fill) : Fill :=
  { f with sum_x := wrap32 f.sum_x, sum_y := wrap32 f.sum_y }

/-- The largest request granted in the concrete runs: 2^48 bytes. -/
def address_space : Nat := 281474976710656

/-- A single row of 65537 pixels, all 255. -/
def bright_row : List Nat := List.replicate 65537 255

/-- A 46341×46341 image: the pixel (0,0) is 255, every other pixel is 0. -/
def one_dot_large : List Nat := 255 :: List.replicate 2147488280 0

/-- A 65536×65536 image with every pixel 255. -/
def bright_large : List Nat := List.replicate 4294967296 255

/-- A 3×3 image whose only pixels above 5 are (2,0) and (0,2). -/
def two_dots : List Nat := [0, 0, 9, 0, 0, 0, 9, 0, 0]

/-- The area of blob `b` is the number of pixels of the 8-connected foreground
component of the foreground pixel `s`. -/
def CountsComponent (gray : List Nat) (width height step threshold : Int) (s : Point)
    (b : Blob) : Prop :=
  Foreground gray width height step threshold s ∧
  ∃ comp : Finset Point,
    (∀ q, q ∈ comp ↔ Connected8 gray width height step threshold s q) ∧
    b.area = (comp.card : Int)

/-- The blob the 32-bit code computes for the component of the foreground pixel
`s`: the area is the number of pixels, and each centroid coordinate is the
truncated quotient of the coordinate sum, reduced to 32 bits, by the area. -/
def Describes32 (gray : List Nat) (width height step threshold : Int) (s : Point) (b : Blob) :
    Prop :=
  Foreground gray width height step threshold s ∧
  ∃ comp : Finset Point,
    (∀ q, q ∈ comp ↔ Connected8 gray width height step threshold s q) ∧
    b.area = (comp.card : Int) ∧
    b.x = Int.tdiv (wrap32 (∑ q ∈ comp, q.x)) (comp.card : Int) ∧
    b.y = Int.tdiv (wrap32 (∑ q ∈ comp, q.y)) (comp.card : Int)

/-! ## The frame hand-off of `main.cpp`

The capture loop and the detection thread share `sharedGrayFrame`,
`newFrameAvailable`, `sharedBlobs` and `stopBlobThread` under `blobMutex`.
Each block of code that runs with the mutex held is one atomic step.  A frame
is identified by a number, and a published blob list by the frame it was
computed from. -/

/-- Where the thread running `blobDetectionThreadFunction` stands: in
`blobCV.wait` (line 39), between the two critical sections (lines 45-67), or
after `break` (line 40). -/
inductive WorkerAt where
  | waiting
  | detecting
  | exited
  deriving DecidableEq, Repr

/-- The shared variables of `main.cpp` (lines 26-32), the worker's position
and its local copy `localGray` (line 43). -/
structure Pipeline where
  sharedGrayFrame : Nat
  newFrameAvailable : Bool
  sharedBlobs : Option Nat
  stopBlobThread : Bool
  worker : WorkerAt
  localGray : Nat
  deriving DecidableEq, Repr

/-- The state when `blobThread` is started (line 122): no frame yet (frame 0
stands for the empty `Mat`), nothing published, the worker about to wait. -/
def Pipeline.start : Pipeline :=
  ⟨0, false, none, false, WorkerAt.waiting, 0⟩

/-- The steps of the two threads. -/
inductive Event where
  | submit (frame : Nat)
  | wake
  | publish
  | stop
  deriving DecidableEq, Repr

/-- One atomic step.  `submit` is the block of lines 159-163 of `main`; `wake`
is lines 37-44 of `blobDetectionThreadFunction` (the wait returns only when
`newFrameAvailable || stopBlobThread`); `publish` is lines 68-71, after the
detection on `localGray`; `stop` is lines 266-270 of `main`.  A step that is
not enabled gives `none`. -/
def Pipeline.step (s : Pipeline) : Event → Option Pipeline
  | Event.submit frame =>
    some { s with sharedGrayFrame := frame, newFrameAvailable := true }
  | Event.wake =>
    if s.worker = WorkerAt.waiting ∧ (s.newFrameAvailable = true ∨ s.stopBlobThread = true) then
      if s.stopBlobThread = true then some { s with worker := WorkerAt.exited }
      else some { s with localGray := s.sharedGrayFrame, worker := WorkerAt.detecting }
    else none
  | Event.publish =>
    if s.worker = WorkerAt.detecting then
      some { s with sharedBlobs := some s.localGray, newFrameAvailable := false,
                    worker := WorkerAt.waiting }
    else none
  | Event.stop =>
    some { s with stopBlobThread := true, newFrameAvailable := true }

/-- A run of the pipeline: the steps taken one after the other. -/
def Pipeline.run (s : Pipeline) (events : List Event) : Option Pipeline :=
  events.foldlM Pipeline.step s

/-! # Theorems -/
/-! ## Index arithmetic -/

theorem index_bounds {width height : Int} {p : Point} (h : InImage width height p) :
    0 ≤ p.y * width + p.x ∧ p.y * width + p.x < width * height := by
  obtain ⟨h1, h2, h3, h4⟩ := h
  constructor
  · have : 0 ≤ p.y * width := Int.mul_nonneg h3 (by omega)
    omega
  · have : (p.y + 1) * width ≤ height * width :=
      Int.mul_le_mul_of_nonneg_right (by omega) (by omega)
    have e1 : (p.y + 1) * width = p.y * width + width := by ring
    have e2 : height * width = width * height := by ring
    omega

theorem index_inj {width height : Int} {p q : Point} (hp : InImage width height p)
    (hq : InImage width height q) (h : p.y * width + p.x = q.y * width + q.x) : p = q := by
  obtain ⟨h1, h2, h3, h4⟩ := hp
  obtain ⟨k1, k2, k3, k4⟩ := hq
  have hy : p.y = q.y := by
    rcases lt_trichotomy p.y q.y with hlt | heq | hgt
    · exfalso
      have : (p.y + 1) * width ≤ q.y * width :=
        Int.mul_le_mul_of_nonneg_right (by omega) (by omega)
      have e1 : (p.y + 1) * width = p.y * width + width := by ring
      omega
    · exact heq
    · exfalso
      have : (q.y + 1) * width ≤ p.y * width :=
        Int.mul_le_mul_of_nonneg_right (by omega) (by omega)
      have e1 : (q.y + 1) * width = q.y * width + width := by ring
      omega
  have hx : p.x = q.x := by rw [hy] at h; omega
  cases p; cases q; simp_all

theorem gray_index_bounds {gray : List Nat} {width height step : Int} {p : Point}
    (hok : ImageOk gray width height step) (h : InImage width height p) :
    0 ≤ p.y * step + p.x ∧ p.y * step + p.x < (gray.length : Int) := by
  obtain ⟨h1, h2, h3, h4⟩ := h
  obtain ⟨_, _, hs, hb⟩ := hok
  have hb2 := hb (by omega)
  constructor
  · have : 0 ≤ p.y * step := Int.mul_nonneg h3 (by omega)
    omega
  · have : p.y * step ≤ (height - 1) * step :=
      Int.mul_le_mul_of_nonneg_right (by omega) (by omega)
    have e : (height - 1) * step = step * (height - 1) := by ring
    omega

theorem load_gray {gray : List Nat} {width height step : Int} {p : Point}
    (hok : ImageOk gray width height step) (h : InImage width height p) :
    load gray (p.y * step + p.x) = some (gray.getD (p.y * step + p.x).toNat 0) := by
  obtain ⟨h0, h1⟩ := gray_index_bounds hok h
  have hlt : (p.y * step + p.x).toNat < gray.length := by omega
  simp [load, h0, List.getD, List.getElem?_eq_getElem hlt]

theorem load_visited {width height : Int} {v : List Bool} {p : Point}
    (hlen : v.length = (width * height).toNat) (h : InImage width height p) :
    load v (p.y * width + p.x) = some true ∨ load v (p.y * width + p.x) = some false := by
  obtain ⟨h0, h1⟩ := index_bounds h
  have hlt : (p.y * width + p.x).toNat < v.length := by omega
  simp only [load, h0, if_true, List.getElem?_eq_getElem hlt]
  cases v[(p.y * width + p.x).toNat] <;> simp

theorem store_visited {width height : Int} {v : List Bool} {p : Point}
    (hlen : v.length = (width * height).toNat) (h : InImage width height p) :
    store v (p.y * width + p.x) true = some (v.set (p.y * width + p.x).toNat true) := by
  obtain ⟨h0, h1⟩ := index_bounds h
  have hlt : (p.y * width + p.x).toNat < v.length := by omega
  simp [store, h0, hlt]

theorem marked_set {width height : Int} {v : List Bool} {p q : Point}
    (hlen : v.length = (width * height).toNat) (hp : InImage width height p)
    (hq : InImage width height q) :
    Marked width (v.set (p.y * width + p.x).toNat true) q ↔ q = p ∨ Marked width v q := by
  obtain ⟨h0, h1⟩ := index_bounds hp
  obtain ⟨k0, k1⟩ := index_bounds hq
  have hlt : (p.y * width + p.x).toNat < v.length := by omega
  unfold Marked load
  simp only [k0, if_true, List.getElem?_set]
  by_cases e : (p.y * width + p.x).toNat = (q.y * width + q.x).toNat
  · have : q = p := (index_inj hp hq (by omega)).symm
    simp [e, this, hlt]
    omega
  · have : q ≠ p := by
      intro hqp; apply e; rw [hqp]
    simp [e, this]

/-! ## The neighbour loop -/

theorem neighbor_eq_visit (gray : List Nat) (width height step threshold : Int)
    (p : Point) (s : Fill) (d : Nat) (hd : d < 8) :
    neighbor gray width height step threshold p s d =
      visit gray width height step threshold s ((neighbors p).getD d p) := by
  interval_cases d <;> rfl

theorem neighbor_fold (gray : List Nat) (width height step threshold : Int)
    (p : Point) (s : Fill) :
    (List.range 8).foldlM (neighbor gray width height step threshold p) s =
      (neighbors p).foldlM (visit gray width height step threshold) s := by
  have hr : List.range 8 = [0, 1, 2, 3, 4, 5, 6, 7] := by decide
  have hn : neighbors p = [(neighbors p).getD 0 p, (neighbors p).getD 1 p,
      (neighbors p).getD 2 p, (neighbors p).getD 3 p, (neighbors p).getD 4 p,
      (neighbors p).getD 5 p, (neighbors p).getD 6 p, (neighbors p).getD 7 p] := rfl
  rw [hr, hn]
  simp only [List.foldlM, neighbor_eq_visit, Nat.lt_add_one, Nat.reduceLT]

theorem mem_neighbors (p n : Point) : n ∈ neighbors p ↔ Adj8 p n := by
  obtain ⟨px, py⟩ := p
  obtain ⟨nx, ny⟩ := n
  simp only [neighbors, dx, dy, List.zip_cons_cons, List.zip_nil_right, List.map_cons,
    List.map_nil, List.mem_cons, Point.mk.injEq, List.mem_singleton, Adj8, ne_eq,
    List.not_mem_nil, or_false]
  omega

theorem adj8_symm {p q : Point} (h : Adj8 p q) : Adj8 q p := by
  obtain ⟨h1, h2, h3, h4, h5⟩ := h
  exact ⟨fun e => h1 e.symm, by omega, by omega, by omega, by omega⟩

theorem length_le_of_nodup (width height : Int) (l : List Point) (hnd : l.Nodup)
    (hin : ∀ q ∈ l, InImage width height q) : l.length ≤ (width * height).toNat := by
  have hnd2 : (l.map fun q : Point => (q.y * width + q.x).toNat).Nodup := by
    apply List.Nodup.map_on _ hnd
    intro a ha b hb hab
    have ba := index_bounds (hin a ha)
    have bb := index_bounds (hin b hb)
    exact index_inj (hin a ha) (hin b hb) (by omega)
  have hsub : (l.map fun q : Point => (q.y * width + q.x).toNat).toFinset ⊆
      Finset.range (width * height).toNat := by
    intro i hi
    simp only [List.mem_toFinset, List.mem_map] at hi
    obtain ⟨q, hq, rfl⟩ := hi
    have := index_bounds (hin q hq)
    simp only [Finset.mem_range]
    omega
  have := Finset.card_le_card hsub
  rw [List.toFinset_card_of_nodup hnd2, Finset.card_range, List.length_map] at this
  exact this

/-- One neighbour visit keeps the flood-fill invariant, only appends to the
queue, only adds marks, and leaves a foreground neighbour marked. -/
theorem visit_spec {gray : List Nat} {width height step threshold : Int}
    {v0 : List Bool} {s0 : Point} {f : Fill} {p n : Point}
    (hok : ImageOk gray width height step)
    (hinv : FillInv gray width height step threshold v0 s0 f)
    (hp : p ∈ f.queue) (hadj : Adj8 p n) :
    ∃ f', visit gray width height step threshold f n = some f' ∧
      FillInv gray width height step threshold v0 s0 f' ∧
      f'.queue_start = f.queue_start ∧ (∃ t, f'.queue = f.queue ++ t) ∧
      (∀ q, InImage width height q → Marked width f.visited q → Marked width f'.visited q) ∧
      (Foreground gray width height step threshold n → Marked width f'.visited n) := by
  by_cases hin : InImage width height n
  · have hguard : ¬ (n.x < 0 ∨ n.x ≥ width ∨ n.y < 0 ∨ n.y ≥ height) := by
      obtain ⟨a, b, c, d⟩ := hin; omega
    rcases load_visited hinv.len hin with hv | hv
    · refine ⟨f, ?_, hinv, rfl, ⟨[], by simp⟩, fun q _ h => h, fun _ => hv⟩
      simp only [visit, hguard, if_false, hv]
    · have hnm : ¬ Marked width f.visited n := by
        unfold Marked; rw [hv]; simp
      have hset : ∀ q, InImage width height q →
          (Marked width (f.visited.set (n.y * width + n.x).toNat true) q ↔
            q = n ∨ Marked width f.visited q) :=
        fun q hq => marked_set hinv.len hin hq
      by_cases hfg : threshold < intensity gray step n
      · have hFG : Foreground gray width height step threshold n := ⟨hin, hfg⟩
        have hnq : n ∉ f.queue := fun h => hnm ((hinv.fg_marked n hFG).2 (Or.inr h))
        have hnd : (f.queue ++ [n]).Nodup := by
          rw [List.nodup_append]
          refine ⟨hinv.nodup, List.nodup_singleton n, ?_⟩
          intro a ha hb
          simp only [List.mem_singleton] at hb
          subst hb; exact hnq ha
        have hmem : ∀ q ∈ f.queue ++ [n], InImage width height q := by
          intro q hq
          simp only [List.mem_append, List.mem_singleton] at hq
          rcases hq with hq | rfl
          · exact (hinv.members q hq).1.1
          · exact hin
        have hlen := length_le_of_nodup width height (f.queue ++ [n]) hnd hmem
        have hq : (f.queue.length : Int) < width * height := by
          simp only [List.length_append, List.length_singleton] at hlen; omega
        refine ⟨{ f with visited := f.visited.set (n.y * width + n.x).toNat true,
                         queue := f.queue ++ [n] }, ?_, ?_, rfl, ⟨[n], rfl⟩, ?_, ?_⟩
        · simp only [visit, hguard, if_false, hv, load_gray hok hin,
            store_visited hinv.len hin]
          have : threshold < ((gray.getD (n.y * step + n.x).toNat 0 : Nat) : Int) := hfg
          rw [if_pos this, if_pos hq]
        · refine ⟨?_, ?_, ?_, hnd, ?_, ?_, ?_, ?_, ?_, hinv.count_eq⟩
          · simp [hinv.len]
          · intro q hq hm
            exact (hset q hq).2 (Or.inr (hinv.mono q hq hm))
          · intro q hq
            show Marked width (f.visited.set (n.y * width + n.x).toNat true) q ↔
              Marked width v0 q ∨ q ∈ f.queue ++ [n]
            rw [hset q hq.1, hinv.fg_marked q hq]
            simp only [List.mem_append, List.mem_singleton]
            tauto
          · intro q hq
            simp only [List.mem_append, List.mem_singleton] at hq
            rcases hq with hq | rfl
            · exact hinv.members q hq
            · refine ⟨hFG, fun h => hnm (hinv.mono _ hin h), ?_⟩
              exact Relation.ReflTransGen.tail (hinv.members p hp).2.2
                ⟨(hinv.members p hp).1, hFG, hadj⟩
          · show s0 ∈ f.queue ++ [n]
            exact List.mem_append_left _ hinv.seed
          · show f.queue_start ≤ (f.queue ++ [n]).length
            have := hinv.start_le
            simp only [List.length_append, List.length_singleton]; omega
          · show f.sum_x = (((f.queue ++ [n]).take f.queue_start).map Point.x).sum
            rw [List.take_append_of_le_length hinv.start_le]; exact hinv.sum_x_eq
          · show f.sum_y = (((f.queue ++ [n]).take f.queue_start).map Point.y).sum
            rw [List.take_append_of_le_length hinv.start_le]; exact hinv.sum_y_eq
        · intro q hq hm
          exact (hset q hq).2 (Or.inr hm)
        · intro _
          exact (hset n hin).2 (Or.inl rfl)
      · have hnFG : ¬ Foreground gray width height step threshold n := fun h => hfg h.2
        refine ⟨{ f with visited := f.visited.set (n.y * width + n.x).toNat true },
          ?_, ?_, rfl, ⟨[], by simp⟩, ?_, ?_⟩
        · simp only [visit, hguard, if_false, hv, load_gray hok hin,
            store_visited hinv.len hin]
          have : ¬ threshold < ((gray.getD (n.y * step + n.x).toNat 0 : Nat) : Int) := hfg
          rw [if_neg this]
        · refine ⟨?_, ?_, ?_, hinv.nodup, hinv.members, hinv.seed, hinv.start_le,
            hinv.sum_x_eq, hinv.sum_y_eq, hinv.count_eq⟩
          · simp [hinv.len]
          · intro q hq hm
            exact (hset q hq).2 (Or.inr (hinv.mono q hq hm))
          · intro q hq
            show Marked width (f.visited.set (n.y * width + n.x).toNat true) q ↔
              Marked width v0 q ∨ q ∈ f.queue
            rw [hset q hq.1, ← hinv.fg_marked q hq]
            constructor
            · rintro (rfl | h)
              · exact absurd hq hnFG
              · exact h
            · exact Or.inr
        · intro q hq hm
          exact (hset q hq).2 (Or.inr hm)
        · intro h
          exact absurd h hnFG
  · have hguard : n.x < 0 ∨ n.x ≥ width ∨ n.y < 0 ∨ n.y ≥ height := by
      unfold InImage at hin; omega
    refine ⟨f, ?_, hinv, rfl, ⟨[], by simp⟩, fun q _ h => h, fun h => absurd h.1 hin⟩
    simp only [visit, hguard, if_true]

/-- The neighbour loop over a list of pixels adjacent to the queue entry `p`. -/
theorem visit_all {gray : List Nat} {width height step threshold : Int}
    {v0 : List Bool} {s0 : Point} {p : Point}
    (hok : ImageOk gray width height step) :
    ∀ (ns : List Point) (f : Fill),
      FillInv gray width height step threshold v0 s0 f → p ∈ f.queue →
      (∀ n ∈ ns, Adj8 p n) →
      ∃ f', ns.foldlM (visit gray width height step threshold) f = some f' ∧
        FillInv gray width height step threshold v0 s0 f' ∧
        f'.queue_start = f.queue_start ∧ (∃ t, f'.queue = f.queue ++ t) ∧
        (∀ q, InImage width height q → Marked width f.visited q → Marked width f'.visited q) ∧
        (∀ n ∈ ns, Foreground gray width height step threshold n → Marked width f'.visited n) := by
  intro ns
  induction ns with
  | nil =>
    intro f hinv _ _
    exact ⟨f, rfl, hinv, rfl, ⟨[], by simp⟩, fun q _ h => h, by simp⟩
  | cons n ns ih =>
    intro f hinv hp hadj
    obtain ⟨f1, e1, inv1, qs1, ⟨t1, ht1⟩, mono1, mk1⟩ :=
      visit_spec hok hinv hp (hadj n (List.mem_cons_self n ns))
    have hp1 : p ∈ f1.queue := by rw [ht1]; exact List.mem_append_left _ hp
    obtain ⟨f2, e2, inv2, qs2, ⟨t2, ht2⟩, mono2, mk2⟩ :=
      ih f1 inv1 hp1 (fun m hm => hadj m (List.mem_cons_of_mem n hm))
    refine ⟨f2, ?_, inv2, by rw [qs2, qs1], ⟨t1 ++ t2, by rw [ht2, ht1, List.append_assoc]⟩,
      fun q hq h => mono2 q hq (mono1 q hq h), ?_⟩
    · rw [List.foldlM_cons, e1]; exact e2
    · intro m hm hfg
      rcases List.mem_cons.1 hm with rfl | hm
      · exact mono2 m hfg.1 (mk1 hfg)
      · exact mk2 m hm hfg

/-! ## The flood-fill loop -/

/-- The flood-fill loop ends with the queue fully explored, provided the fuel
covers the queue slots that are still unread. -/
theorem flood_spec {gray : List Nat} {width height step threshold : Int}
    {v0 : List Bool} {s0 : Point} (hok : ImageOk gray width height step) :
    ∀ (fuel : Nat) (f : Fill),
      FillInv gray width height step threshold v0 s0 f →
      Explored gray width height step threshold f f.queue_start →
      (width * height).toNat ≤ fuel + f.queue_start →
      ∃ f', flood gray width height step threshold fuel f = some f' ∧
        FillInv gray width height step threshold v0 s0 f' ∧
        Explored gray width height step threshold f' f'.queue.length ∧
        f'.queue_start = f'.queue.length := by
  intro fuel
  induction fuel with
  | zero =>
    intro f hinv hex hfuel
    have hle := length_le_of_nodup width height f.queue hinv.nodup (fun q hq => (hinv.members q hq).1.1)
    have hs := hinv.start_le
    have heq : f.queue_start = f.queue.length := by omega
    refine ⟨f, ?_, hinv, by rw [← heq]; exact hex, heq⟩
    simp [flood, heq]
  | succ fuel ih =>
    intro f hinv hex hfuel
    by_cases hlt : f.queue_start < f.queue.length
    · have hget : f.queue[f.queue_start]? = some (f.queue[f.queue_start]) :=
        List.getElem?_eq_getElem hlt
      generalize hpdef : f.queue[f.queue_start] = p at hget
      have hpq : p ∈ f.queue := by rw [← hpdef]; exact List.getElem_mem hlt
      have htake : f.queue.take (f.queue_start + 1) = f.queue.take f.queue_start ++ [p] := by
        rw [List.take_succ, hget]; rfl
      have inv1 : FillInv gray width height step threshold v0 s0
          { f with queue_start := f.queue_start + 1, sum_x := f.sum_x + p.x,
                   sum_y := f.sum_y + p.y, count := f.count + 1 } := by
        refine ⟨hinv.len, hinv.mono, hinv.fg_marked, hinv.nodup, hinv.members, hinv.seed,
          hlt, ?_, ?_, ?_⟩
        · show f.sum_x + p.x = ((f.queue.take (f.queue_start + 1)).map Point.x).sum
          rw [htake, hinv.sum_x_eq]; simp
        · show f.sum_y + p.y = ((f.queue.take (f.queue_start + 1)).map Point.y).sum
          rw [htake, hinv.sum_y_eq]; simp
        · show f.count + 1 = ((f.queue_start + 1 : Nat) : Int)
          rw [hinv.count_eq]; simp
      obtain ⟨f2, e2, inv2, qs2, ⟨t2, ht2⟩, mono2, mk2⟩ :=
        visit_all hok (neighbors p) _ inv1 hpq (fun n hn => (mem_neighbors p n).1 hn)
      have hex2 : Explored gray width height step threshold f2 f2.queue_start := by
        intro q hq n hn hadj
        have hq' : q ∈ f.queue.take f.queue_start ++ [p] := by
          rw [← htake]
          rw [qs2, ht2] at hq
          rwa [List.take_append_of_le_length (by exact hlt)] at hq
        rcases List.mem_append.1 hq' with h | h
        · exact mono2 n hn.1 (hex q h n hn hadj)
        · rw [List.mem_singleton] at h
          subst h
          exact mk2 n ((mem_neighbors q n).2 hadj) hn
      obtain ⟨f3, e3, inv3, hex3, qs3⟩ := ih f2 inv2 hex2 (by rw [qs2]; show _ ≤ fuel + (f.queue_start + 1); omega)
      refine ⟨f3, ?_, inv3, hex3, qs3⟩
      rw [flood, if_pos hlt, hget]
      simp only []
      rw [neighbor_fold, e2]
      exact e3
    · have hs := hinv.start_le
      have heq : f.queue_start = f.queue.length := by omega
      refine ⟨f, ?_, hinv, by rw [← heq]; exact hex, heq⟩
      rw [flood, if_neg hlt]

/-- After the loop the queue holds exactly the component of the seed, provided
the marks present before the fill were closed under links. -/
theorem queue_eq_component {gray : List Nat} {width height step threshold : Int}
    {v0 : List Bool} {s0 : Point} {f : Fill}
    (hinv : FillInv gray width height step threshold v0 s0 f)
    (hex : Explored gray width height step threshold f f.queue.length)
    (hclosed : ∀ a b, Link gray width height step threshold a b →
      Marked width v0 a → Marked width v0 b) :
    ∀ q, q ∈ f.queue ↔ Connected8 gray width height step threshold s0 q := by
  intro q
  constructor
  · intro hq
    exact (hinv.members q hq).2.2
  · intro hc
    induction hc with
    | refl => exact hinv.seed
    | @tail a b _ hl ih =>
      obtain ⟨hfa, hfb, hadj⟩ := hl
      have hm := hex a (by rw [List.take_length]; exact ih) b hfb hadj
      rcases (hinv.fg_marked b hfb).1 hm with h0 | hq
      · exact absurd (hclosed b a ⟨hfb, hfa, adj8_symm hadj⟩ h0) (hinv.members a ih).2.1
      · exact hq

/-! ## The raster order -/

theorem mem_raster {width height : Int} (p : Point) :
    p ∈ raster width height ↔ InImage width height p := by
  obtain ⟨px, py⟩ := p
  simp only [raster, List.mem_flatMap, List.mem_range, List.mem_map, Point.mk.injEq, InImage]
  constructor
  · rintro ⟨y, hy, x, hx, rfl, rfl⟩
    omega
  · rintro ⟨h1, h2, h3, h4⟩
    exact ⟨py.toNat, by omega, px.toNat, by omega, by omega, by omega⟩

theorem raster_sorted (width height : Int) : (raster width height).Pairwise RasterLt := by
  unfold raster
  rw [List.pairwise_flatMap]
  constructor
  · intro y _
    rw [List.pairwise_map]
    apply List.Pairwise.imp _ (List.pairwise_lt_range _)
    intro a b hab
    right
    exact ⟨rfl, by simp only []; omega⟩
  · apply List.Pairwise.imp _ (List.pairwise_lt_range _)
    intro a b hab p hp q hq
    simp only [List.mem_map, List.mem_range] at hp hq
    obtain ⟨_, _, rfl⟩ := hp
    obtain ⟨_, _, rfl⟩ := hq
    left
    simp only []; omega

theorem rasterLt_of_split {width height : Int} {pre post : List Point} {p : Point}
    (h : raster width height = pre ++ p :: post) :
    (∀ a ∈ pre, RasterLt a p) ∧ (∀ b ∈ post, RasterLt p b) := by
  have hs := raster_sorted width height
  rw [h, List.pairwise_append] at hs
  obtain ⟨_, h2, h3⟩ := hs
  refine ⟨fun a ha => h3 a ha p (List.mem_cons_self p post), ?_⟩
  intro b hb
  exact (List.pairwise_cons.1 h2).1 b hb

theorem not_marked_replicate (width : Int) (n : Nat) (q : Point) :
    ¬ Marked width (List.replicate n false) q := by
  unfold Marked load
  split
  · intro h
    have := List.getElem?_mem h
    simp at this
  · simp

/-! ## One pixel of the raster scan -/

theorem scanInv_closed {gray : List Nat} {width height step threshold : Int}
    {pre : List Point} {v : List Bool} {tr : List (Point × Fill)}
    (hinv : ScanInv gray width height step threshold pre v tr) :
    ∀ a b, Link gray width height step threshold a b → Marked width v a → Marked width v b := by
  intro a b hl hm
  obtain ⟨e, he, hae⟩ := (hinv.cover a hl.1).1 hm
  have hc := (hinv.comps e he).2
  have hca : Connected8 gray width height step threshold e.1 a := (hc.mem_iff a).1 hae
  have hcb : Connected8 gray width height step threshold e.1 b :=
    Relation.ReflTransGen.tail hca hl
  exact (hinv.cover b hl.2.1).2 ⟨e, he, (hc.mem_iff b).2 hcb⟩

/-- One pixel of the scan keeps the scan invariant; a pixel that starts a flood
fill adds its component to the trace. -/
theorem seed_step_spec {gray : List Nat} {width height step threshold : Int}
    {pre post : List Point} {p : Point} {v : List Bool} {tr : List (Point × Fill)}
    (hok : ImageOk gray width height step)
    (hsplit : raster width height = pre ++ p :: post)
    (hinv : ScanInv gray width height step threshold pre v tr) :
    (∃ v1, seed_step gray width height step threshold p.y p.x v = some (v1, none) ∧
        ScanInv gray width height step threshold (pre ++ [p]) v1 tr) ∨
    (∃ v1 f, seed_step gray width height step threshold p.y p.x v = some (v1, some f) ∧
        ScanInv gray width height step threshold (pre ++ [p]) v1 (tr ++ [(p, f)])) := by
  have hmemr : ∀ q, q ∈ pre ∨ q = p ∨ q ∈ post ↔ InImage width height q := by
    intro q
    rw [← mem_raster, hsplit, List.mem_append, List.mem_cons]
  have hin : InImage width height p := (hmemr p).1 (Or.inr (Or.inl rfl))
  have hpre : ∀ q ∈ pre, InImage width height q := fun q hq => (hmemr q).1 (Or.inl hq)
  obtain ⟨hbefore, hafter⟩ := rasterLt_of_split hsplit
  have hcomps : ∀ e ∈ tr, e.1 ∈ pre ++ [p] ∧
      IsComponent gray width height step threshold e.1 e.2 :=
    fun e he => ⟨List.mem_append_left _ (hinv.comps e he).1, (hinv.comps e he).2⟩
  have hset : ∀ q, InImage width height q →
      (Marked width (v.set (p.y * width + p.x).toNat true) q ↔ q = p ∨ Marked width v q) :=
    fun q hq => marked_set hinv.len hin hq
  rcases load_visited hinv.len hin with hv | hv
  · left
    refine ⟨v, ?_, hinv.len, ?_, hinv.cover, hcomps, hinv.sorted⟩
    · simp only [seed_step, hv]
    · intro q hq
      rcases List.mem_append.1 hq with h | h
      · exact hinv.pre_marked q h
      · rw [List.mem_singleton] at h; subst h; exact hv
  · have hnm : ¬ Marked width v p := by unfold Marked; rw [hv]; simp
    by_cases hfg : threshold < intensity gray step p
    · right
      have hFG : Foreground gray width height step threshold p := ⟨hin, hfg⟩
      have hpos : (0 : Int) < width * height := by
        have := index_bounds hin; omega
      have inv0 : FillInv gray width height step threshold v p
          ⟨v.set (p.y * width + p.x).toNat true, [p], 0, 0, 0, 0⟩ := by
        refine ⟨by simp [hinv.len], ?_, ?_, List.nodup_singleton p, ?_, List.mem_singleton_self p,
          Nat.zero_le _, by simp, by simp, by simp⟩
        · intro q hq hm
          exact (hset q hq).2 (Or.inr hm)
        · intro q hq
          show Marked width (v.set (p.y * width + p.x).toNat true) q ↔ Marked width v q ∨ q ∈ [p]
          rw [hset q hq.1, List.mem_singleton]; tauto
        · intro q hq
          rw [List.mem_singleton] at hq; subst hq
          exact ⟨hFG, hnm, Relation.ReflTransGen.refl⟩
      have hex0 : Explored gray width height step threshold
          ⟨v.set (p.y * width + p.x).toNat true, [p], 0, 0, 0, 0⟩ 0 := by
        intro q hq; simp at hq
      obtain ⟨f, ef, invf, hexf, qsf⟩ :=
        flood_spec hok (width * height).toNat _ inv0 hex0 (by simp)
      have hcomp := queue_eq_component invf hexf (scanInv_closed hinv)
      refine ⟨f.visited, f, ?_, invf.len, ?_, ?_, ?_, ?_⟩
      · simp only [seed_step, hv, load_gray hok hin, store_visited hinv.len hin]
        have h1 : ¬ ((gray.getD (p.y * step + p.x).toNat 0 : Nat) : Int) ≤ threshold :=
          not_le.2 hfg
        rw [if_neg h1, if_pos hpos]
        have hp : (⟨p.x, p.y⟩ : Point) = p := rfl
        rw [hp, ef]
      · intro q hq
        rcases List.mem_append.1 hq with h | h
        · exact invf.mono q (hpre q h) (hinv.pre_marked q h)
        · rw [List.mem_singleton] at h; subst h
          exact (invf.fg_marked q hFG).2 (Or.inr invf.seed)
      · intro q hq
        rw [invf.fg_marked q hq, hinv.cover q hq]
        constructor
        · rintro (⟨e, he, hqe⟩ | h)
          · exact ⟨e, List.mem_append_left _ he, hqe⟩
          · exact ⟨(p, f), by simp, h⟩
        · rintro ⟨e, he, hqe⟩
          rcases List.mem_append.1 he with h | h
          · exact Or.inl ⟨e, h, hqe⟩
          · rw [List.mem_singleton] at h; subst h; exact Or.inr hqe
      · intro e he
        rcases List.mem_append.1 he with h | h
        · exact hcomps e h
        · rw [List.mem_singleton] at h; subst h
          refine ⟨by simp, hFG, invf.nodup, hcomp, ?_, ?_, ?_, ?_⟩
          · show f.count = (f.queue.length : Int)
            rw [invf.count_eq, qsf]
          · show f.sum_x = (f.queue.map Point.x).sum
            rw [invf.sum_x_eq, qsf, List.take_length]
          · show f.sum_y = (f.queue.map Point.y).sum
            rw [invf.sum_y_eq, qsf, List.take_length]
          · intro q hq
            have hqq : q ∈ f.queue := (hcomp q).2 hq
            have hqm := invf.members q hqq
            rcases (hmemr q).2 hqm.1.1 with h | h | h
            · exact absurd (hinv.pre_marked q h) hqm.2.1
            · exact Or.inl h
            · exact Or.inr (hafter q h)
      · rw [List.pairwise_append]
        refine ⟨hinv.sorted, List.pairwise_singleton _ _, ?_⟩
        intro a ha b hb
        rw [List.mem_singleton] at hb; subst hb
        exact hbefore a.1 (hinv.comps a ha).1
    · left
      have hnFG : ¬ Foreground gray width height step threshold p := fun h => hfg h.2
      refine ⟨v.set (p.y * width + p.x).toNat true, ?_, by simp [hinv.len], ?_, ?_, hcomps,
        hinv.sorted⟩
      · simp only [seed_step, hv, load_gray hok hin, store_visited hinv.len hin]
        have h1 : ((gray.getD (p.y * step + p.x).toNat 0 : Nat) : Int) ≤ threshold :=
          not_lt.1 hfg
        rw [if_pos h1]
      · intro q hq
        rcases List.mem_append.1 hq with h | h
        · exact (hset q (hpre q h)).2 (Or.inr (hinv.pre_marked q h))
        · rw [List.mem_singleton] at h; subst h
          exact (hset q hin).2 (Or.inl rfl)
      · intro q hq
        rw [hset q hq.1, ← hinv.cover q hq]
        constructor
        · rintro (rfl | h)
          · exact absurd hq hnFG
          · exact h
        · exact Or.inr

theorem trace_scan_spec {gray : List Nat} {width height step threshold : Int}
    (hok : ImageOk gray width height step) :
    ∀ (l pre : List Point) (v : List Bool) (tr : List (Point × Fill)),
      raster width height = pre ++ l →
      ScanInv gray width height step threshold pre v tr →
      ∃ v2 tr2, trace_scan gray width height step threshold l v = some (v2, tr2) ∧
        ScanInv gray width height step threshold (raster width height) v2 (tr ++ tr2) := by
  intro l
  induction l with
  | nil =>
    intro pre v tr hsplit hinv
    refine ⟨v, [], rfl, ?_⟩
    rw [List.append_nil] at hsplit
    rw [List.append_nil, hsplit]; exact hinv
  | cons p l ih =>
    intro pre v tr hsplit hinv
    have hsplit2 : raster width height = (pre ++ [p]) ++ l := by
      rw [hsplit, List.append_assoc]; rfl
    rcases seed_step_spec hok hsplit hinv with ⟨v1, e1, inv1⟩ | ⟨v1, f, e1, inv1⟩
    · obtain ⟨v2, tr2, e2, inv2⟩ := ih (pre ++ [p]) v1 tr hsplit2 inv1
      refine ⟨v2, tr2, ?_, inv2⟩
      simp only [trace_scan, e1, e2]
    · obtain ⟨v2, tr2, e2, inv2⟩ := ih (pre ++ [p]) v1 (tr ++ [(p, f)]) hsplit2 inv1
      refine ⟨v2, (p, f) :: tr2, ?_, ?_⟩
      · simp only [trace_scan, e1, e2]
      · rw [List.append_assoc] at inv2; exact inv2

theorem trace_scan_raster {gray : List Nat} {width height step : Int} (threshold : Int)
    (hok : ImageOk gray width height step) :
    ∃ v tr, trace_scan gray width height step threshold (raster width height)
        (List.replicate (width * height).toNat false) = some (v, tr) ∧
      ScanInv gray width height step threshold (raster width height) v tr := by
  have h0 : ScanInv gray width height step threshold []
      (List.replicate (width * height).toNat false) [] := by
    refine ⟨by simp, by simp, ?_, by simp, List.Pairwise.nil⟩
    intro q _
    constructor
    · intro h; exact absurd h (not_marked_replicate _ _ _)
    · rintro ⟨e, he, _⟩; simp at he
  obtain ⟨v, tr, e, inv⟩ := trace_scan_spec hok (raster width height) [] _ [] rfl h0
  exact ⟨v, tr, e, by simpa using inv⟩

/-! ## The scan as a trace followed by the output writes -/

/-- The loop body is the `visited` part followed by the output part. -/
theorem pixel_step_eq (gray : List Nat) (width height step threshold min_area max_area : Int)
    (max_blobs : Int) (y x : Int) (s : Scan) :
    pixel_step gray width height step threshold min_area max_area max_blobs y x s =
      match seed_step gray width height step threshold y x s.visited with
      | none => none
      | some (v, none) => some { s with visited := v }
      | some (v, some f) =>
        match record min_area max_area max_blobs (s.blobs, s.num_blobs) f with
        | none => none
        | some o => some ⟨v, o.1, o.2⟩ := by
  unfold pixel_step seed_step record
  dsimp only
  cases h1 : load s.visited (y * width + x) with
  | none => rfl
  | some b =>
    cases b with
    | true => rfl
    | false =>
      cases h2 : load gray (y * step + x) with
      | none => rfl
      | some pixel =>
        simp only []
        by_cases h3 : (pixel : Int) ≤ threshold
        · simp only [h3, if_true]
          cases h4 : store s.visited (y * width + x) true <;> rfl
        · simp only [h3, if_false]
          by_cases h5 : (0 : Int) < width * height
          · simp only [h5, if_true]
            cases h4 : store s.visited (y * width + x) true with
            | none => rfl
            | some v =>
              simp only []
              cases h6 : flood gray width height step threshold (width * height).toNat
                ⟨v, [⟨x, y⟩], 0, 0, 0, 0⟩ with
              | none => rfl
              | some f =>
                simp only []
                by_cases h7 : f.count ≥ min_area ∧ f.count ≤ max_area
                · simp only [h7, and_self, if_true]
                  by_cases h8 : (s.num_blobs : Int) < max_blobs
                  · simp only [h8, if_true]
                    by_cases h9 : f.count = 0
                    · simp only [h9, if_true]
                    · simp only [h9, if_false]
                      cases h10 : store s.blobs (s.num_blobs : Int) (blob_of f) with
                      | none =>
                        unfold blob_of at h10
                        simp only [h10]
                      | some b =>
                        unfold blob_of at h10
                        simp only [h10]
                  · simp only [h8, if_false]
                · simp only [h7, if_false]
          · simp only [h5, if_false]

theorem foldlM_flatMap {α β σ : Type} (f : σ → β → Option σ) (g : α → List β) :
    ∀ (l : List α) (s : σ),
      (l.flatMap g).foldlM f s = l.foldlM (fun s a => (g a).foldlM f s) s := by
  intro l
  induction l with
  | nil => intro s; rfl
  | cons a l ih =>
    intro s
    rw [List.flatMap_cons, List.foldlM_append, List.foldlM_cons]
    congr
    funext s1
    exact ih s1

theorem scan_fold_eq (gray : List Nat) (width height step threshold min_area max_area : Int)
    (max_blobs : Int) (s : Scan) :
    (List.range height.toNat).foldlM
        (scan_row gray width height step threshold min_area max_area max_blobs) s =
      (raster width height).foldlM
        (fun s p =>
          pixel_step gray width height step threshold min_area max_area max_blobs p.y p.x s) s := by
  unfold raster
  rw [foldlM_flatMap]
  congr
  funext s1 y
  unfold scan_row
  rw [List.foldlM_map]

/-- The scan is the trace of its flood fills followed by the output writes. -/
theorem fold_eq_trace (gray : List Nat) (width height step threshold min_area max_area : Int)
    (max_blobs : Int) :
    ∀ (l : List Point) (s : Scan),
      l.foldlM (fun s p =>
          pixel_step gray width height step threshold min_area max_area max_blobs p.y p.x s) s =
        match trace_scan gray width height step threshold l s.visited with
        | none => none
        | some (v, tr) =>
          match (tr.map Prod.snd).foldlM (record min_area max_area max_blobs)
              (s.blobs, s.num_blobs) with
          | none => none
          | some o => some ⟨v, o.1, o.2⟩ := by
  intro l
  induction l with
  | nil => intro s; rfl
  | cons p l ih =>
    intro s
    rw [List.foldlM_cons, pixel_step_eq]
    unfold trace_scan
    cases h1 : seed_step gray width height step threshold p.y p.x s.visited with
    | none => rfl
    | some r =>
      obtain ⟨v1, o⟩ := r
      cases o with
      | none =>
        simp only [Option.bind_eq_bind, Option.some_bind]
        exact ih _
      | some f =>
        simp only []
        cases h2 : record min_area max_area max_blobs (s.blobs, s.num_blobs) f with
        | none =>
          simp only [Option.bind_eq_bind, Option.none_bind]
          cases h3 : trace_scan gray width height step threshold l v1 with
          | none => rfl
          | some r2 =>
            obtain ⟨v2, tr⟩ := r2
            simp only [List.map_cons, List.foldlM_cons, h2, Option.bind_eq_bind, Option.none_bind]
        | some o =>
          simp only [Option.bind_eq_bind, Option.some_bind]
          rw [ih]
          cases h3 : trace_scan gray width height step threshold l v1 with
          | none => rfl
          | some r2 =>
            obtain ⟨v2, tr⟩ := r2
            simp only [List.map_cons, List.foldlM_cons, h2, Option.bind_eq_bind, Option.some_bind]

theorem take_succ_set {α : Type} (arr : List α) (n : Nat) (b : α) (h : n < arr.length) :
    (arr.set n b).take (n + 1) = arr.take n ++ [b] := by
  rw [List.take_succ, List.getElem?_set]
  simp only [if_true, h]
  rw [List.set_eq_take_append_cons_drop, if_pos h]
  have hl : (List.take n arr).length = n := by
    rw [List.length_take]; omega
  rw [List.take_append_of_le_length (by omega)]
  rw [List.take_take]
  simp

/-- The output writes: the array receives, from index `n` on, the blobs that
pass the area test, up to the capacity. -/
theorem record_fold (min_area max_area max_blobs : Int) :
    ∀ (fs : List Fill) (arr : List Blob) (n : Nat),
      (∀ f ∈ fs, f.count ≠ 0) → max_blobs ≤ (arr.length : Int) →
      ∃ arr2 n2, fs.foldlM (record min_area max_area max_blobs) (arr, n) = some (arr2, n2) ∧
        arr2.length = arr.length ∧
        n2 = n + ((kept min_area max_area fs).take (max_blobs.toNat - n)).length ∧
        arr2.drop n2 = arr.drop n2 ∧
        arr2.take n2 = arr.take n ++ (kept min_area max_area fs).take (max_blobs.toNat - n) := by
  intro fs
  induction fs with
  | nil =>
    intro arr n _ _
    exact ⟨arr, n, rfl, rfl, by simp [kept], rfl, by simp [kept]⟩
  | cons f fs ih =>
    intro arr n hne hcap
    have hne2 : ∀ g ∈ fs, g.count ≠ 0 := fun g hg => hne g (List.mem_cons_of_mem f hg)
    have hf0 : f.count ≠ 0 := hne f (List.mem_cons_self f fs)
    rw [List.foldlM_cons]
    by_cases hin : f.count ≥ min_area ∧ f.count ≤ max_area
    · have hk : kept min_area max_area (f :: fs) = blob_of f :: kept min_area max_area fs := by
        have : min_area ≤ (blob_of f).area ∧ (blob_of f).area ≤ max_area := hin
        simp [kept, this]
      by_cases hlt : (n : Int) < max_blobs
      · have hn : n < arr.length := by omega
        have hst : store arr (n : Int) (blob_of f) = some (arr.set n (blob_of f)) := by
          simp [store, hn]
        obtain ⟨arr2, n2, e2, l2, c2, d2, t2⟩ :=
          ih (arr.set n (blob_of f)) (n + 1) hne2 (by simpa using hcap)
        have hK : max_blobs.toNat - n = (max_blobs.toNat - (n + 1)) + 1 := by omega
        refine ⟨arr2, n2, ?_, by simpa using l2, ?_, ?_, ?_⟩
        · simp only [record, hin, and_self, if_true, hlt, hf0, if_false, hst,
            Option.bind_eq_bind, Option.some_bind]
          exact e2
        · rw [c2, hk, hK, List.take_succ_cons, List.length_cons]
          omega
        · rw [d2, List.drop_set_of_lt _ _ (by omega)]
        · rw [t2, take_succ_set arr n _ hn, hk, hK, List.take_succ_cons]
          simp
      · obtain ⟨arr2, n2, e2, l2, c2, d2, t2⟩ := ih arr n hne2 hcap
        have hK : max_blobs.toNat - n = 0 := by omega
        refine ⟨arr2, n2, ?_, l2, ?_, d2, ?_⟩
        · simp only [record, hin, and_self, if_true, hlt, if_false,
            Option.bind_eq_bind, Option.some_bind]
          exact e2
        · rw [c2, hK]; simp
        · rw [t2, hK]; simp
    · have hk : kept min_area max_area (f :: fs) = kept min_area max_area fs := by
        have : ¬ (min_area ≤ (blob_of f).area ∧ (blob_of f).area ≤ max_area) := hin
        simp [kept, this]
      obtain ⟨arr2, n2, e2, l2, c2, d2, t2⟩ := ih arr n hne2 hcap
      refine ⟨arr2, n2, ?_, l2, by rw [c2, hk], d2, by rw [t2, hk]⟩
      simp only [record, hin, if_false, Option.bind_eq_bind, Option.some_bind]
      exact e2

/-! ## The whole call -/

theorem isComponent_count_pos {gray : List Nat} {width height step threshold : Int}
    {s0 : Point} {f : Fill} (h : IsComponent gray width height step threshold s0 f) :
    0 < f.count := by
  have hs : s0 ∈ f.queue := (h.mem_iff s0).2 Relation.ReflTransGen.refl
  have := List.length_pos_of_mem hs
  rw [h.count_eq]; omega

/-- The call runs to completion and reports the blobs of the trace that pass
the area test, cut at the capacity. -/
theorem detect_blobs_spec {gray : List Nat} {width height step : Int}
    (threshold min_area max_area : Int) (blobs : List Blob) (max_blobs : Int)
    (hok : ImageOk gray width height step) (hout : max_blobs ≤ (blobs.length : Int)) :
    ∃ v tr arr,
      trace_scan gray width height step threshold (raster width height)
        (List.replicate (width * height).toNat false) = some (v, tr) ∧
      ScanInv gray width height step threshold (raster width height) v tr ∧
      detect_blobs gray width height step threshold min_area max_area blobs max_blobs =
        some (arr, (((kept min_area max_area (tr.map Prod.snd)).take max_blobs.toNat).length : Int)) ∧
      arr.length = blobs.length ∧
      arr.drop ((kept min_area max_area (tr.map Prod.snd)).take max_blobs.toNat).length =
        blobs.drop ((kept min_area max_area (tr.map Prod.snd)).take max_blobs.toNat).length ∧
      detected gray width height step threshold min_area max_area blobs max_blobs =
        some ((kept min_area max_area (tr.map Prod.snd)).take max_blobs.toNat) := by
  obtain ⟨v, tr, etr, inv⟩ := trace_scan_raster threshold hok
  have hne : ∀ f ∈ tr.map Prod.snd, f.count ≠ 0 := by
    intro f hf
    obtain ⟨e, he, rfl⟩ := List.mem_map.1 hf
    have := isComponent_count_pos (inv.comps e he).2
    omega
  obtain ⟨arr, n, erec, hlen, hn, hdrop, htake⟩ :=
    record_fold min_area max_area max_blobs (tr.map Prod.snd) blobs 0 hne hout
  simp only [Nat.sub_zero, List.take_zero, List.nil_append, Nat.zero_add] at hn htake
  have hdet : detect_blobs gray width height step threshold min_area max_area blobs max_blobs =
      some (arr, (n : Int)) := by
    unfold detect_blobs
    simp only []
    rw [scan_fold_eq, fold_eq_trace]
    simp only [etr, erec]
  refine ⟨v, tr, arr, etr, inv, by rw [hdet, hn], hlen, by rw [← hn]; exact hdrop, ?_⟩
  unfold detected
  rw [hdet]
  simp only [Option.map_some', Int.toNat_ofNat, htake]

/-! ## From the trace to the reported blobs -/

theorem kept_take_eq (min_area max_area : Int) (tr : List (Point × Fill)) (k : Nat) :
    (kept min_area max_area (tr.map Prod.snd)).take k =
      (((tr.filter (passes min_area max_area)).take k).map fun e => blob_of e.2) := by
  unfold kept
  rw [List.map_map, List.filter_map, List.map_take]
  rfl

theorem connected8_symm {gray : List Nat} {width height step threshold : Int} {p q : Point}
    (h : Connected8 gray width height step threshold p q) :
    Connected8 gray width height step threshold q p := by
  have hs : Symmetric (Link gray width height step threshold) :=
    fun a b hab => ⟨hab.2.1, hab.1, adj8_symm hab.2.2⟩
  exact Relation.ReflTransGen.symmetric hs h

theorem connected8_foreground {gray : List Nat} {width height step threshold : Int}
    {p q : Point} (hp : Foreground gray width height step threshold p)
    (h : Connected8 gray width height step threshold p q) :
    Foreground gray width height step threshold q := by
  induction h with
  | refl => exact hp
  | tail _ hl _ => exact hl.2.1

theorem rasterLt_irrefl (p : Point) : ¬ RasterLt p p := by
  unfold RasterLt; omega

theorem rasterLt_asymm {p q : Point} (h : RasterLt p q) : ¬ RasterLt q p := by
  unfold RasterLt at *; omega

theorem raster_nodup (width height : Int) : (raster width height).Nodup := by
  have h := raster_sorted width height
  unfold List.Nodup
  apply List.Pairwise.imp _ h
  intro a b hab e
  subst e
  exact rasterLt_irrefl a hab

theorem mem_queues {gray : List Nat} {width height step threshold : Int}
    {v : List Bool} {tr : List (Point × Fill)}
    (inv : ScanInv gray width height step threshold (raster width height) v tr) (q : Point) :
    (q ∈ tr.flatMap fun e => e.2.queue) ↔ Foreground gray width height step threshold q := by
  rw [List.mem_flatMap]
  constructor
  · rintro ⟨e, he, hq⟩
    have c := (inv.comps e he).2
    exact connected8_foreground c.seed_fg ((c.mem_iff q).1 hq)
  · intro hq
    exact (inv.cover q hq).1 (inv.pre_marked q ((mem_raster q).2 hq.1))

theorem eq_singleton_of_nodup {α : Type} {l : List α} {a : α} (hnd : l.Nodup)
    (h : ∀ q, q ∈ l ↔ q = a) : l = [a] := by
  apply List.perm_singleton.1
  rw [List.perm_ext_iff_of_nodup hnd (List.nodup_singleton a)]
  intro q
  rw [h q, List.mem_singleton]


theorem dot_image_ok : ImageOk dot_image 2 2 2 := by
  simp [ImageOk, dot_image]

theorem dot_image_foreground (q : Point) : Foreground dot_image 2 2 2 5 q ↔ q = ⟨1, 0⟩ := by
  obtain ⟨x, y⟩ := q
  unfold Foreground InImage intensity
  constructor
  · rintro ⟨⟨h1, h2, h3, h4⟩, h5⟩
    simp only at h1 h2 h3 h4 h5
    have hx : x = 0 ∨ x = 1 := by omega
    have hy : y = 0 ∨ y = 1 := by omega
    rcases hx with rfl | rfl <;> rcases hy with rfl | rfl <;>
      simp [dot_image] at h5 ⊢
  · intro h
    simp only [Point.mk.injEq] at h
    obtain ⟨rfl, rfl⟩ := h
    simp [dot_image]

theorem wrap32_eq_self {i : Int} (h1 : -2147483648 ≤ i) (h2 : i ≤ 2147483647) :
    wrap32 i = i := by
  unfold wrap32; omega

theorem wrap32_wrap32_add (a b : Int) : wrap32 (wrap32 a + b) = wrap32 (a + b) := by
  unfold wrap32; omega

theorem wrap32_index {i x : Int} (h1 : 0 ≤ i + x) (h2 : i + x ≤ 2147483647) :
    wrap32 (wrap32 i + x) = i + x := by
  rw [wrap32_wrap32_add, wrap32_eq_self (by omega) h2]

theorem load_offset_bounds {d : Nat} {o : Int} (h : load dx d = some o ∨ load dy d = some o) :
    -1 ≤ o ∧ o ≤ 1 := by
  have hmem : o ∈ dx ∨ o ∈ dy := by
    rcases h with h | h
    · left
      unfold load at h
      split at h
      · exact List.getElem?_mem h
      · simp at h
    · right
      unfold load at h
      split at h
      · exact List.getElem?_mem h
      · simp at h
  simp only [dx, dy, List.mem_cons, List.mem_singleton, List.not_mem_nil, or_false] at hmem
  omega

/-- Inside the image and within `Fits`, the 32-bit neighbour step is the
unbounded one. -/
theorem neighbor32_eq {gray : List Nat} {width height step threshold : Int} {heap : Nat}
    (hok : ImageOk gray width height step) (hfit : Fits heap width height step)
    {p : Point} (hp : InImage width height p) (s : Fill) (d : Nat) :
    neighbor32 gray width height step threshold (width * height).toNat p s d =
      neighbor gray width height step threshold p s d := by
  obtain ⟨p1, p2, p3, p4⟩ := hp
  have hsize := hfit.size_le
  have hpos : 0 < width * height := by
    have := index_bounds (⟨p1, p2, p3, p4⟩ : InImage width height p); omega
  have hwle : width ≤ 2147483647 := by
    have : width * 1 ≤ width * height := Int.mul_le_mul_of_nonneg_left (by omega) (by omega)
    omega
  have hhle : height ≤ 2147483647 := by
    have : 1 * height ≤ width * height := Int.mul_le_mul_of_nonneg_right (by omega) (by omega)
    omega
  unfold neighbor32 neighbor
  cases hdx : load dx d with
  | none => rfl
  | some ox =>
    cases hdy : load dy d with
    | none => rfl
    | some oy =>
      have box := load_offset_bounds (Or.inl hdx)
      have boy := load_offset_bounds (Or.inr hdy)
      have hnx : wrap32 (p.x + ox) = p.x + ox := wrap32_eq_self (by omega) (by omega)
      have hny : wrap32 (p.y + oy) = p.y + oy := wrap32_eq_self (by omega) (by omega)
      simp only [hnx, hny]
      by_cases hg : p.x + ox < 0 ∨ p.x + ox ≥ width ∨ p.y + oy < 0 ∨ p.y + oy ≥ height
      · rw [if_pos hg, if_pos hg]
      · rw [if_neg hg, if_neg hg]
        have hin : InImage width height ⟨p.x + ox, p.y + oy⟩ := by
          unfold InImage; simp only []; omega
        have hi := index_bounds hin
        have hgi := gray_index_bounds hok hin
        simp only [] at hi hgi
        have hext := hfit.extent_le
        have hgle : (p.y + oy) * step + (p.x + ox) ≤ 2147483647 := by
          have h1 : (p.y + oy) * step ≤ (height - 1) * step :=
            Int.mul_le_mul_of_nonneg_right (by omega) (by have := hok.2.2.1; omega)
          have e : (height - 1) * step = step * (height - 1) := by ring
          omega
        rw [wrap32_index hi.1 (by omega), wrap32_index hgi.1 hgle]
        have hq : (s.queue.length < (width * height).toNat) ↔
            ((s.queue.length : Int) < width * height) := by omega
        simp only [hq]

theorem neighbor_wrapped (gray : List Nat) (width height step threshold : Int)
    (p : Point) (s : Fill) (d : Nat) :
    neighbor gray width height step threshold p s.wrapped d =
      (neighbor gray width height step threshold p s d).map Fill.wrapped := by
  unfold neighbor
  cases hdx : load dx d with
  | none => rfl
  | some ox =>
    cases hdy : load dy d with
    | none => rfl
    | some oy =>
      simp only []
      by_cases hg : p.x + ox < 0 ∨ p.x + ox ≥ width ∨ p.y + oy < 0 ∨ p.y + oy ≥ height
      · rw [if_pos hg, if_pos hg]; rfl
      · rw [if_neg hg, if_neg hg]
        have hv : s.wrapped.visited = s.visited := rfl
        have hq : s.wrapped.queue = s.queue := rfl
        rw [hv, hq]
        cases h1 : load s.visited ((p.y + oy) * width + (p.x + ox)) with
        | none => rfl
        | some b =>
          cases b with
          | true => rfl
          | false =>
            simp only []
            cases h2 : load gray ((p.y + oy) * step + (p.x + ox)) with
            | none => rfl
            | some npixel =>
              simp only []
              by_cases h3 : (npixel : Int) > threshold
              · rw [if_pos h3, if_pos h3]
                cases h4 : store s.visited ((p.y + oy) * width + (p.x + ox)) true with
                | none => rfl
                | some v =>
                  simp only []
                  by_cases h5 : (s.queue.length : Int) < width * height
                  · rw [if_pos h5, if_pos h5]; rfl
                  · rw [if_neg h5, if_neg h5]; rfl
              · rw [if_neg h3, if_neg h3]
                cases h4 : store s.visited ((p.y + oy) * width + (p.x + ox)) true with
                | none => rfl
                | some v => rfl

theorem neighbor_fold_wrapped (gray : List Nat) (width height step threshold : Int)
    (p : Point) :
    ∀ (l : List Nat) (s : Fill),
      l.foldlM (neighbor gray width height step threshold p) s.wrapped =
        (l.foldlM (neighbor gray width height step threshold p) s).map Fill.wrapped := by
  intro l
  induction l with
  | nil => intro s; rfl
  | cons d l ih =>
    intro s
    rw [List.foldlM_cons, List.foldlM_cons, neighbor_wrapped]
    cases h : neighbor gray width height step threshold p s d with
    | none => rfl
    | some s1 =>
      simp only [Option.map_some', Option.bind_eq_bind, Option.some_bind]
      exact ih s1

/-- Within `Fits` the 32-bit flood fill is the unbounded one with its two sums
reduced to 32 bits. -/
theorem flood32_wrapped {gray : List Nat} {width height step threshold : Int} {heap : Nat}
    {v0 : List Bool} {s0 : Point}
    (hok : ImageOk gray width height step) (hfit : Fits heap width height step) :
    ∀ (fuel : Nat) (s : Fill),
      FillInv gray width height step threshold v0 s0 s →
      flood32 gray width height step threshold (width * height).toNat fuel s.wrapped =
        (flood gray width height step threshold fuel s).map Fill.wrapped := by
  intro fuel
  induction fuel with
  | zero =>
    intro s _
    unfold flood32 flood
    have hq : s.wrapped.queue = s.queue := rfl
    have hs : s.wrapped.queue_start = s.queue_start := rfl
    rw [hq, hs]
    by_cases h : s.queue_start < s.queue.length
    · rw [if_pos h, if_pos h]; rfl
    · rw [if_neg h, if_neg h]; rfl
  | succ fuel ih =>
    intro s hinv
    unfold flood32 flood
    have hq : s.wrapped.queue = s.queue := rfl
    have hs : s.wrapped.queue_start = s.queue_start := rfl
    rw [hq, hs]
    by_cases hlt : s.queue_start < s.queue.length
    · rw [if_pos hlt, if_pos hlt]
      have hget : s.queue[s.queue_start]? = some (s.queue[s.queue_start]) :=
        List.getElem?_eq_getElem hlt
      generalize hpdef : s.queue[s.queue_start] = p at hget
      have hpq : p ∈ s.queue := by rw [← hpdef]; exact List.getElem_mem hlt
      have hpin : InImage width height p := (hinv.members p hpq).1.1
      rw [hget]
      simp only []
      have hlen := length_le_of_nodup width height s.queue hinv.nodup
        (fun q hq => (hinv.members q hq).1.1)
      have hsize := hfit.size_le
      have hcount : wrap32 (s.wrapped.count + 1) = s.count + 1 := by
        have hc : s.wrapped.count = s.count := rfl
        rw [hc, hinv.count_eq]
        exact wrap32_eq_self (by omega) (by omega)
      have hsx : wrap32 (s.wrapped.sum_x + p.x) = wrap32 (s.sum_x + p.x) :=
        wrap32_wrap32_add _ _
      have hsy : wrap32 (s.wrapped.sum_y + p.y) = wrap32 (s.sum_y + p.y) :=
        wrap32_wrap32_add _ _
      rw [hcount, hsx, hsy]
      have hfun : neighbor32 gray width height step threshold (width * height).toNat p =
          neighbor gray width height step threshold p := by
        funext s d
        exact neighbor32_eq hok hfit hpin s d
      rw [hfun]
      have hstate :
          (⟨s.wrapped.visited, s.queue, s.queue_start + 1, wrap32 (s.sum_x + p.x),
              wrap32 (s.sum_y + p.y), s.count + 1⟩ : Fill) =
            Fill.wrapped ⟨s.visited, s.queue, s.queue_start + 1, s.sum_x + p.x,
              s.sum_y + p.y, s.count + 1⟩ := rfl
      rw [hstate, neighbor_fold_wrapped]
      have htake : s.queue.take (s.queue_start + 1) = s.queue.take s.queue_start ++ [p] := by
        rw [List.take_succ, hget]; rfl
      have inv1 : FillInv gray width height step threshold v0 s0
          { s with queue_start := s.queue_start + 1, sum_x := s.sum_x + p.x,
                   sum_y := s.sum_y + p.y, count := s.count + 1 } := by
        refine ⟨hinv.len, hinv.mono, hinv.fg_marked, hinv.nodup, hinv.members, hinv.seed,
          hlt, ?_, ?_, ?_⟩
        · show s.sum_x + p.x = ((s.queue.take (s.queue_start + 1)).map Point.x).sum
          rw [htake, hinv.sum_x_eq]; simp
        · show s.sum_y + p.y = ((s.queue.take (s.queue_start + 1)).map Point.y).sum
          rw [htake, hinv.sum_y_eq]; simp
        · show s.count + 1 = ((s.queue_start + 1 : Nat) : Int)
          rw [hinv.count_eq]; simp
      obtain ⟨f2, e2, inv2, _, _, _, _⟩ :=
        visit_all hok (neighbors p) _ inv1 hpq (fun n hn => (mem_neighbors p n).1 hn)
      rw [neighbor_fold, e2]
      simp only [Option.map_some']
      exact ih f2 inv2
    · rw [if_neg hlt, if_neg hlt]; rfl

theorem fillInv_init {gray : List Nat} {width height step threshold : Int}
    {pre : List Point} {v : List Bool} {tr : List (Point × Fill)} {p : Point}
    (hinv : ScanInv gray width height step threshold pre v tr)
    (hFG : Foreground gray width height step threshold p)
    (hv : load v (p.y * width + p.x) = some false) :
    FillInv gray width height step threshold v p
      ⟨v.set (p.y * width + p.x).toNat true, [p], 0, 0, 0, 0⟩ := by
  have hin := hFG.1
  have hnm : ¬ Marked width v p := by unfold Marked; rw [hv]; simp
  have hset : ∀ q, InImage width height q →
      (Marked width (v.set (p.y * width + p.x).toNat true) q ↔ q = p ∨ Marked width v q) :=
    fun q hq => marked_set hinv.len hin hq
  refine ⟨by simp [hinv.len], ?_, ?_, List.nodup_singleton p, ?_, List.mem_singleton_self p,
    Nat.zero_le _, by simp, by simp, by simp⟩
  · intro q hq hm
    exact (hset q hq).2 (Or.inr hm)
  · intro q hq
    show Marked width (v.set (p.y * width + p.x).toNat true) q ↔ Marked width v q ∨ q ∈ [p]
    rw [hset q hq.1, List.mem_singleton]; tauto
  · intro q hq
    rw [List.mem_singleton] at hq; subst hq
    exact ⟨hFG, hnm, Relation.ReflTransGen.refl⟩

/-- Within `Fits`, the 32-bit loop body at a pixel of the image is the
`visited` part of the unbounded one followed by the output part on the flood
fill with its sums reduced to 32 bits. -/
theorem pixel_step32_eq {gray : List Nat} {width height step threshold : Int} {heap : Nat}
    (min_area max_area max_blobs : Int)
    {pre post : List Point} {p : Point} {s : Scan} {tr : List (Point × Fill)}
    (hok : ImageOk gray width height step) (hfit : Fits heap width height step)
    (hsplit : raster width height = pre ++ p :: post)
    (hinv : ScanInv gray width height step threshold pre s.visited tr) :
    pixel_step32 gray width height step threshold min_area max_area max_blobs
        (width * height).toNat p.y p.x s =
      match seed_step gray width height step threshold p.y p.x s.visited with
      | none => none
      | some (v, none) => some { s with visited := v }
      | some (v, some f) =>
        match record min_area max_area max_blobs (s.blobs, s.num_blobs) f.wrapped with
        | none => none
        | some o => some ⟨v, o.1, o.2⟩ := by
  have hin : InImage width height p := by
    rw [← mem_raster, hsplit]; simp
  have hi := index_bounds hin
  have hgi := gray_index_bounds hok hin
  have hsize := hfit.size_le
  have hext := hfit.extent_le
  have hgle : p.y * step + p.x ≤ 2147483647 := by
    obtain ⟨h1, h2, h3, h4⟩ := hin
    have h5 : p.y * step ≤ (height - 1) * step :=
      Int.mul_le_mul_of_nonneg_right (by omega) (by have := hok.2.2.1; omega)
    have e : (height - 1) * step = step * (height - 1) := by ring
    omega
  unfold pixel_step32 seed_step record
  dsimp only
  rw [wrap32_index hi.1 (by omega), wrap32_index hgi.1 hgle]
  cases h1 : load s.visited (p.y * width + p.x) with
  | none => rfl
  | some b =>
    cases b with
    | true => rfl
    | false =>
      cases h2 : load gray (p.y * step + p.x) with
      | none => rfl
      | some pixel =>
        simp only []
        by_cases h3 : (pixel : Int) ≤ threshold
        · simp only [h3, if_true]
          cases h4 : store s.visited (p.y * width + p.x) true <;> rfl
        · simp only [h3, if_false]
          have hpos : (0 : Int) < width * height := by omega
          have hposn : 0 < (width * height).toNat := by omega
          simp only [hpos, hposn, if_true]
          have hFG : Foreground gray width height step threshold p := by
            refine ⟨hin, ?_⟩
            rw [load_gray hok hin] at h2
            simp only [Option.some.injEq] at h2
            unfold intensity
            rw [h2]; omega
          have hst := store_visited hinv.len hin
          rw [hst]
          simp only []
          have inv0 := fillInv_init hinv hFG h1
          have hw0 : (⟨s.visited.set (p.y * width + p.x).toNat true, [⟨p.x, p.y⟩], 0, 0, 0, 0⟩ :
              Fill) = Fill.wrapped
                ⟨s.visited.set (p.y * width + p.x).toNat true, [⟨p.x, p.y⟩], 0, 0, 0, 0⟩ := by
            unfold Fill.wrapped wrap32
            rfl
          have hp : (⟨p.x, p.y⟩ : Point) = p := rfl
          rw [hp] at hw0 ⊢
          have hsim := flood32_wrapped hok hfit (width * height).toNat _ inv0
          rw [← hw0] at hsim
          rw [hsim]
          cases h6 : flood gray width height step threshold (width * height).toNat
              ⟨s.visited.set (p.y * width + p.x).toNat true, [p], 0, 0, 0, 0⟩ with
          | none => rfl
          | some f =>
            simp only [Option.map_some']
            have hc : f.wrapped.count = f.count := rfl
            have hv : f.wrapped.visited = f.visited := rfl
            by_cases h7 : f.count ≥ min_area ∧ f.count ≤ max_area
            · simp only [hc, hv, h7, and_self, if_true]
              by_cases h8 : (s.num_blobs : Int) < max_blobs
              · simp only [h8, if_true]
                by_cases h9 : f.count = 0
                · simp only [h9, if_true]
                · simp only [h9, if_false]
                  cases h10 : store s.blobs (s.num_blobs : Int) (blob_of f.wrapped) with
                  | none =>
                    unfold blob_of at h10
                    simp only [hc] at h10
                    simp only [h10]
                  | some b =>
                    unfold blob_of at h10
                    simp only [hc] at h10
                    simp only [h10]
              · simp only [h8, if_false]
            · simp only [hc, hv, h7, if_false]

theorem scan_fold32_eq (gray : List Nat) (width height step threshold min_area max_area : Int)
    (max_blobs : Int) (cap : Nat) (s : Scan) :
    (List.range height.toNat).foldlM
        (scan_row32 gray width height step threshold min_area max_area max_blobs cap) s =
      (raster width height).foldlM
        (fun s p =>
          pixel_step32 gray width height step threshold min_area max_area max_blobs cap
            p.y p.x s) s := by
  unfold raster
  rw [foldlM_flatMap]
  congr
  funext s1 y
  unfold scan_row32
  rw [List.foldlM_map]

/-- Within `Fits`, the 32-bit scan is the trace of the unbounded scan followed
by the output writes on the flood fills with their sums reduced to 32 bits. -/
theorem fold32_eq_trace {gray : List Nat} {width height step threshold : Int} {heap : Nat}
    (min_area max_area max_blobs : Int)
    (hok : ImageOk gray width height step) (hfit : Fits heap width height step) :
    ∀ (l pre : List Point) (s : Scan) (tr : List (Point × Fill)),
      raster width height = pre ++ l →
      ScanInv gray width height step threshold pre s.visited tr →
      l.foldlM (fun s p =>
          pixel_step32 gray width height step threshold min_area max_area max_blobs
            (width * height).toNat p.y p.x s) s =
        match trace_scan gray width height step threshold l s.visited with
        | none => none
        | some (v, tr2) =>
          match ((tr2.map Prod.snd).map Fill.wrapped).foldlM
              (record min_area max_area max_blobs) (s.blobs, s.num_blobs) with
          | none => none
          | some o => some ⟨v, o.1, o.2⟩ := by
  intro l
  induction l with
  | nil => intro pre s tr _ _; rfl
  | cons p l ih =>
    intro pre s tr hsplit hinv
    have hsplit2 : raster width height = (pre ++ [p]) ++ l := by
      rw [hsplit, List.append_assoc]; rfl
    rw [List.foldlM_cons, pixel_step32_eq min_area max_area max_blobs hok hfit hsplit hinv]
    unfold trace_scan
    rcases seed_step_spec hok hsplit hinv with ⟨v1, e1, inv1⟩ | ⟨v1, f, e1, inv1⟩
    · rw [e1]
      simp only [Option.bind_eq_bind, Option.some_bind]
      exact ih (pre ++ [p]) { s with visited := v1 } tr hsplit2 inv1
    · rw [e1]
      simp only []
      cases h2 : record min_area max_area max_blobs (s.blobs, s.num_blobs) f.wrapped with
      | none =>
        simp only [Option.bind_eq_bind, Option.none_bind]
        cases h3 : trace_scan gray width height step threshold l v1 with
        | none => rfl
        | some r2 =>
          obtain ⟨v2, tr2⟩ := r2
          simp only [List.map_cons, List.foldlM_cons, h2, Option.bind_eq_bind, Option.none_bind]
      | some o =>
        simp only [Option.bind_eq_bind, Option.some_bind]
        rw [ih (pre ++ [p]) ⟨v1, o.1, o.2⟩ (tr ++ [(p, f)]) hsplit2 inv1]
        cases h3 : trace_scan gray width height step threshold l v1 with
        | none => rfl
        | some r2 =>
          obtain ⟨v2, tr2⟩ := r2
          simp only [List.map_cons, List.foldlM_cons, h2, Option.bind_eq_bind, Option.some_bind]

/-- Within `Fits` the 32-bit call runs to completion and reports the blobs of
the trace, computed from the sums reduced to 32 bits, that pass the area test,
cut at the capacity. -/
theorem detect_blobs32_spec {gray : List Nat} {width height step : Int} {heap : Nat}
    (threshold min_area max_area : Int) (blobs : List Blob) (max_blobs : Int)
    (hok : ImageOk gray width height step) (hfit : Fits heap width height step)
    (hout : max_blobs ≤ (blobs.length : Int)) :
    ∃ v tr arr,
      trace_scan gray width height step threshold (raster width height)
        (List.replicate (width * height).toNat false) = some (v, tr) ∧
      ScanInv gray width height step threshold (raster width height) v tr ∧
      detect_blobs32 heap gray width height step threshold min_area max_area blobs max_blobs =
        some (arr, (((kept min_area max_area ((tr.map Prod.snd).map Fill.wrapped)).take
          max_blobs.toNat).length : Int)) ∧
      arr.length = blobs.length ∧
      detected32 heap gray width height step threshold min_area max_area blobs max_blobs =
        some ((kept min_area max_area ((tr.map Prod.snd).map Fill.wrapped)).take
          max_blobs.toNat) := by
  obtain ⟨v, tr, etr, inv⟩ := trace_scan_raster threshold hok
  have hne : ∀ f ∈ (tr.map Prod.snd).map Fill.wrapped, f.count ≠ 0 := by
    intro f hf
    obtain ⟨g, hg, rfl⟩ := List.mem_map.1 hf
    obtain ⟨e, he, rfl⟩ := List.mem_map.1 hg
    have := isComponent_count_pos (inv.comps e he).2
    show e.2.count ≠ 0
    omega
  obtain ⟨arr, n, erec, hlen, hn, _, htake⟩ :=
    record_fold min_area max_area max_blobs ((tr.map Prod.snd).map Fill.wrapped) blobs 0 hne hout
  simp only [Nat.sub_zero, List.take_zero, List.nil_append, Nat.zero_add] at hn htake
  have h0 : ScanInv gray width height step threshold []
      (List.replicate (width * height).toNat false) [] := by
    refine ⟨by simp, by simp, ?_, by simp, List.Pairwise.nil⟩
    intro q _
    constructor
    · intro h; exact absurd h (not_marked_replicate _ _ _)
    · rintro ⟨e, he, _⟩; simp at he
  have hnn : 0 ≤ width * height := Int.mul_nonneg hok.1 hok.2.1
  have hsize := hfit.size_le
  have hheap := hfit.heap_le
  have hw : wrap32 (width * height) = width * height := wrap32_eq_self (by omega) hsize
  have hvb : ((width * height) % 18446744073709551616).toNat = (width * height).toNat := by
    omega
  have hqb : ((width * height) * 8 % 18446744073709551616).toNat / 8 =
      (width * height).toNat := by omega
  have hc1 : ¬ heap < (width * height).toNat := by omega
  have hc2 : ¬ heap < ((width * height) * 8 % 18446744073709551616).toNat := by omega
  have hdet : detect_blobs32 heap gray width height step threshold min_area max_area blobs
      max_blobs = some (arr, (n : Int)) := by
    unfold detect_blobs32
    simp only [hw, hvb, hqb, hc1, hc2, if_false]
    rw [scan_fold32_eq,
      fold32_eq_trace min_area max_area max_blobs hok hfit (raster width height) []
        ⟨List.replicate (width * height).toNat false, blobs, 0⟩ [] rfl h0]
    simp only [etr, erec]
  refine ⟨v, tr, arr, etr, inv, by rw [hdet, hn], hlen, ?_⟩
  unfold detected32
  rw [hdet]
  simp only [Option.map_some', Int.toNat_ofNat, htake]

/-! ## Images with a single component -/

theorem trace_singleton {gray : List Nat} {width height step threshold : Int}
    {v : List Bool} {tr : List (Point × Fill)}
    (inv : ScanInv gray width height step threshold (raster width height) v tr)
    (p : Point) (hp : Foreground gray width height step threshold p)
    (hconn : ∀ q, Foreground gray width height step threshold q →
      Connected8 gray width height step threshold p q) :
    ∃ e, tr = [e] ∧ IsComponent gray width height step threshold e.1 e.2 ∧
      ∀ q, q ∈ e.2.queue ↔ Foreground gray width height step threshold q := by
  have hpq : p ∈ tr.flatMap fun e => e.2.queue := (mem_queues inv p).2 hp
  obtain ⟨e, he, hpe⟩ := List.mem_flatMap.1 hpq
  have htr : tr = [e] := by
    have hs := inv.sorted
    have hcomps := inv.comps
    match tr, hs, hcomps, he with
    | [a], _, _, he => rw [List.mem_singleton.1 he]
    | a :: b :: rest, hs, hcomps, _ =>
      exfalso
      have ca := (hcomps a (by simp)).2
      have cb := (hcomps b (by simp)).2
      have hlt := (List.pairwise_cons.1 hs).1 b (by simp)
      have hba : Connected8 gray width height step threshold b.1 a.1 :=
        Relation.ReflTransGen.trans (connected8_symm (hconn b.1 cb.seed_fg)) (hconn a.1 ca.seed_fg)
      rcases cb.least a.1 hba with h | h
      · rw [h] at hlt; exact rasterLt_irrefl _ hlt
      · exact rasterLt_asymm hlt h
  have c := (inv.comps e he).2
  refine ⟨e, htr, c, ?_⟩
  intro q
  rw [c.mem_iff q]
  constructor
  · intro h; exact connected8_foreground c.seed_fg h
  · intro h
    exact Relation.ReflTransGen.trans (connected8_symm (hconn e.1 c.seed_fg)) (hconn q h)

/-- C7: on an image that fits 32-bit arithmetic and the allocator (`Fits`:
`width * height ≤ INT_MAX`, every pixel offset at most `INT_MAX`, both scratch
arrays granted) with exactly one foreground pixel `p`, with
`min_area ≤ 1 ≤ max_area` and a capacity of at least 1, the call reports
exactly one blob, whose centroid is `p` and whose area is 1. -/
theorem C7_single_foreground_pixel (heap : Nat) (gray : List Nat)
    (width height step threshold min_area max_area : Int) (blobs : List Blob) (max_blobs : Int)
    (p : Point)
    (hok : ImageOk gray width height step) (hfit : Fits heap width height step)
    (hout : max_blobs ≤ (blobs.length : Int))
    (hcap : 1 ≤ max_blobs) (hmin : min_area ≤ 1) (hmax : 1 ≤ max_area)
    (honly : ∀ q, Foreground gray width height step threshold q ↔ q = p) :
    detected32 heap gray width height step threshold min_area max_area blobs max_blobs =
      some [⟨p.x, p.y, 1⟩] := by
  obtain ⟨v, tr, _, _, inv, _, _, hdet⟩ :=
    detect_blobs32_spec threshold min_area max_area blobs max_blobs hok hfit hout
  have hp : Foreground gray width height step threshold p := (honly p).2 rfl
  obtain ⟨e, htr, c, hmem⟩ := trace_singleton inv p hp (by
    intro q hq
    rw [(honly q).1 hq]
    exact Relation.ReflTransGen.refl)
  have hq : e.2.queue = [p] := by
    apply eq_singleton_of_nodup c.nodup
    intro q
    rw [hmem q, honly q]
  have hcount : e.2.count = 1 := by rw [c.count_eq, hq]; rfl
  have hsx : e.2.sum_x = p.x := by rw [c.sum_x_eq, hq]; simp
  have hsy : e.2.sum_y = p.y := by rw [c.sum_y_eq, hq]; simp
  obtain ⟨p1, p2, p3, p4⟩ := hp.1
  have hsize := hfit.size_le
  have hwle : width ≤ 2147483647 := by
    have : width * 1 ≤ width * height := Int.mul_le_mul_of_nonneg_left (by omega) (by omega)
    omega
  have hhle : height ≤ 2147483647 := by
    have : 1 * height ≤ width * height := Int.mul_le_mul_of_nonneg_right (by omega) (by omega)
    omega
  have hb : blob_of e.2.wrapped = ⟨p.x, p.y, 1⟩ := by
    show (⟨Int.tdiv (wrap32 e.2.sum_x) e.2.count, Int.tdiv (wrap32 e.2.sum_y) e.2.count,
      e.2.count⟩ : Blob) = _
    rw [hcount, hsx, hsy, Int.tdiv_one, Int.tdiv_one,
      wrap32_eq_self (by omega) (by omega), wrap32_eq_self (by omega) (by omega)]
  rw [hdet, htr]
  have hk : kept min_area max_area (([e].map Prod.snd).map Fill.wrapped) = [⟨p.x, p.y, 1⟩] := by
    simp [kept, hb, hmin, hmax]
  rw [hk]
  have : max_blobs.toNat = (max_blobs.toNat - 1) + 1 := by omega
  rw [this]
  simp

theorem dot_image_fits : Fits address_space 2 2 2 := by
  refine ⟨by norm_num, by norm_num, ?_⟩
  unfold address_space
  norm_num

theorem C7_single_foreground_pixel_witness :
    ImageOk dot_image 2 2 2 ∧ Fits address_space 2 2 2 ∧
    (1 : Int) ≤ (([⟨0, 0, 0⟩] : List Blob).length : Int) ∧
    (1 : Int) ≤ 1 ∧ (1 : Int) ≤ 1 ∧ (1 : Int) ≤ 4 ∧
    (∀ q, Foreground dot_image 2 2 2 5 q ↔ q = ⟨1, 0⟩) ∧
    detected32 address_space dot_image 2 2 2 5 1 4 [⟨0, 0, 0⟩] 1 = some [⟨1, 0, 1⟩] :=
  ⟨dot_image_ok, dot_image_fits, by simp, by norm_num, by norm_num, by norm_num,
    dot_image_foreground,
    C7_single_foreground_pixel address_space dot_image 2 2 2 5 1 4 [⟨0, 0, 0⟩] 1 ⟨1, 0⟩
      dot_image_ok dot_image_fits (by simp) (by norm_num) (by norm_num) (by norm_num)
      dot_image_foreground⟩

/-! ## An image too large for `int size` -/

/-- A refused `calloc` (line 17): the call returns 0 and writes nothing. -/
theorem detect_blobs32_refused (heap : Nat) (gray : List Nat)
    (width height step threshold min_area max_area : Int) (blobs : List Blob) (max_blobs : Int)
    (h : heap < (wrap32 (width * height) % 18446744073709551616).toNat) :
    detect_blobs32 heap gray width height step threshold min_area max_area blobs max_blobs =
      some (blobs, 0) := by
  unfold detect_blobs32
  simp only []
  rw [if_pos h]

theorem one_dot_large_ok : ImageOk one_dot_large 46341 46341 46341 := by
  refine ⟨by norm_num, by norm_num, by norm_num, ?_⟩
  intro _
  unfold one_dot_large
  rw [List.length_cons, List.length_replicate]
  norm_num

theorem one_dot_large_getD (i : Nat) : one_dot_large.getD i 0 = if i = 0 then 255 else 0 := by
  unfold one_dot_large
  cases i with
  | zero => rfl
  | succ k =>
    rw [List.getD_cons_succ, List.getD_eq_getElem?_getD, List.getElem?_replicate]
    split <;> simp

theorem one_dot_large_foreground (q : Point) :
    Foreground one_dot_large 46341 46341 46341 100 q ↔ q = ⟨0, 0⟩ := by
  obtain ⟨x, y⟩ := q
  unfold Foreground InImage intensity
  simp only [one_dot_large_getD, Point.mk.injEq]
  constructor
  · rintro ⟨⟨h1, h2, h3, h4⟩, h5⟩
    by_cases h0 : (y * 46341 + x).toNat = 0
    · omega
    · rw [if_neg h0] at h5
      simp at h5
  · rintro ⟨rfl, rfl⟩
    norm_num

/-- C7 fails as stated: the 46341×46341 image `one_dot_large` has exactly one
foreground pixel, the bounds are `min_area = 1 = max_area` and the capacity is
1, but `width * height` is 2147488281, above `INT_MAX`, so `size` is negative,
`calloc` is asked for more than 2^63 bytes and refused, and the call returns 0
blobs (line 17).  The same return is taken on the 2×2 image `dot_image` when
the allocator grants nothing. -/
theorem C7_one_pixel_allocation_refused :
    ImageOk one_dot_large 46341 46341 46341 ∧
    (∀ q, Foreground one_dot_large 46341 46341 46341 100 q ↔ q = ⟨0, 0⟩) ∧
    (1 : Int) ≤ (([⟨7, 7, 7⟩] : List Blob).length : Int) ∧
    detect_blobs32 address_space one_dot_large 46341 46341 46341 100 1 1 [⟨7, 7, 7⟩] 1 =
      some ([⟨7, 7, 7⟩], 0) ∧
    detected32 address_space one_dot_large 46341 46341 46341 100 1 1 [⟨7, 7, 7⟩] 1 = some [] ∧
    detected32 address_space one_dot_large 46341 46341 46341 100 1 1 [⟨7, 7, 7⟩] 1 ≠
      some [⟨0, 0, 1⟩] ∧
    detected32 0 dot_image 2 2 2 5 1 4 [⟨7, 7, 7⟩] 1 = some [] := by
  have hdet : detect_blobs32 address_space one_dot_large 46341 46341 46341 100 1 1
      [⟨7, 7, 7⟩] 1 = some ([⟨7, 7, 7⟩], 0) :=
    detect_blobs32_refused address_space one_dot_large 46341 46341 46341 100 1 1 [⟨7, 7, 7⟩] 1
      (by decide)
  have hrep : detected32 address_space one_dot_large 46341 46341 46341 100 1 1
      [⟨7, 7, 7⟩] 1 = some [] := by
    unfold detected32
    rw [hdet]
    rfl
  refine ⟨one_dot_large_ok, one_dot_large_foreground, by simp, hdet, hrep, ?_, by decide⟩
  rw [hrep]
  simp

/-! ## A component whose coordinate sum exceeds `INT_MAX` -/

theorem raster_one_row (W : Int) (n : Nat) (hW : W = (n : Int)) :
    raster W 1 = (List.range n).map fun (x : Nat) => Point.mk (x : Int) 0 := by
  subst hW
  unfold raster
  have h1 : (1 : Int).toNat = 1 := rfl
  have h2 : List.range 1 = [0] := rfl
  rw [h1, h2, Int.toNat_ofNat]
  simp only [List.flatMap_cons, List.flatMap_nil, List.append_nil]
  rfl

theorem sum_range_cast (n : Nat) :
    ((List.range n).map fun (x : Nat) => (x : Int)).sum * 2 = (n : Int) * ((n : Int) - 1) := by
  induction n with
  | zero => rfl
  | succ k ih =>
    rw [List.range_succ, List.map_append, List.sum_append, add_mul, ih]
    simp only [List.map_cons, List.map_nil, List.sum_cons, List.sum_nil, add_zero]
    push_cast
    ring

theorem raster_one_row_sums (W : Int) (n : Nat) (hW : W = (n : Int)) :
    ((raster W 1).map Point.x).sum * 2 = (n : Int) * ((n : Int) - 1) ∧
    ((raster W 1).map Point.y).sum = 0 ∧ (raster W 1).length = n := by
  rw [raster_one_row W n hW]
  refine ⟨?_, ?_, by simp⟩
  · rw [List.map_map]
    exact sum_range_cast n
  · rw [List.map_map]
    apply List.sum_eq_zero
    intro z hz
    obtain ⟨_, _, rfl⟩ := List.mem_map.1 hz
    rfl

theorem bright_row_ok : ImageOk bright_row 65537 1 65537 := by
  refine ⟨by norm_num, by norm_num, by norm_num, ?_⟩
  intro _
  unfold bright_row
  rw [List.length_replicate]
  norm_num

theorem bright_row_fits : Fits address_space 65537 1 65537 := by
  refine ⟨by norm_num, by norm_num, ?_⟩
  unfold address_space
  norm_num

theorem bright_row_foreground (q : Point) :
    Foreground bright_row 65537 1 65537 100 q ↔ InImage 65537 1 q := by
  constructor
  · intro h; exact h.1
  · intro h
    refine ⟨h, ?_⟩
    obtain ⟨h1, h2, h3, h4⟩ := h
    unfold intensity bright_row
    have hlt : (q.y * 65537 + q.x).toNat < 65537 := by omega
    rw [List.getD_eq_getElem?_getD, List.getElem?_replicate, if_pos hlt]
    norm_num

theorem bright_row_connected (q : Point) (hq : InImage 65537 1 q) :
    Connected8 bright_row 65537 1 65537 100 ⟨0, 0⟩ q := by
  have key : ∀ k : Nat, (k : Int) < 65537 →
      Connected8 bright_row 65537 1 65537 100 ⟨0, 0⟩ ⟨(k : Int), 0⟩ := by
    intro k
    induction k with
    | zero => intro _; exact Relation.ReflTransGen.refl
    | succ k ih =>
      intro hk
      have hk2 : (k : Int) < 65537 := by push_cast at hk; omega
      refine Relation.ReflTransGen.tail (ih hk2) ⟨?_, ?_, ?_⟩
      · exact (bright_row_foreground _).2 ⟨by simp, hk2, by simp, by simp⟩
      · exact (bright_row_foreground _).2 ⟨by simp only []; omega, hk, by simp, by simp⟩
      · refine ⟨?_, ?_, ?_, ?_, ?_⟩
        · intro h
          simp only [Point.mk.injEq] at h
          have := h.1
          push_cast at this
          omega
        all_goals (simp only []; push_cast; try omega)
  obtain ⟨h1, h2, h3, h4⟩ := hq
  have hy : q.y = 0 := by omega
  have hx : q.x = ((q.x.toNat : Nat) : Int) := by omega
  have := key q.x.toNat (by omega)
  rw [← hx] at this
  obtain ⟨x, y⟩ := q
  simp only at hy
  subst hy
  exact this

/-- C1: on the single row of 65537 pixels, all above the threshold, the sum of
the x coordinates of the one component is 2147516416, above `INT_MAX`; `sum_x`
wraps to -2147450880 and the call reports the blob (-32767, 0, 65537), which
describes no component of the image (its x is not even inside the image; the
centroid of the row is (32768, 0)). -/
theorem C1_centroid_sum_overflows :
    ImageOk bright_row 65537 1 65537 ∧
    (1 : Int) ≤ (([⟨0, 0, 0⟩] : List Blob).length : Int) ∧
    detected32 address_space bright_row 65537 1 65537 100 1 65537 [⟨0, 0, 0⟩] 1 =
      some [⟨-32767, 0, 65537⟩] ∧
    ∀ s, ¬ Describes bright_row 65537 1 65537 100 s ⟨-32767, 0, 65537⟩ := by
  refine ⟨bright_row_ok, by simp, ?_, ?_⟩
  · obtain ⟨v, tr, _, _, inv, _, _, hdet⟩ :=
      detect_blobs32_spec (100 : Int) 1 65537 [⟨0, 0, 0⟩] 1 bright_row_ok bright_row_fits
        (by simp)
    have h00 : InImage 65537 1 ⟨0, 0⟩ := by unfold InImage; simp
    obtain ⟨e, htr, c, hmem⟩ := trace_singleton inv ⟨0, 0⟩ ((bright_row_foreground _).2 h00)
      (fun q hq => bright_row_connected q hq.1)
    have hperm : e.2.queue.Perm (raster 65537 1) := by
      rw [List.perm_ext_iff_of_nodup c.nodup (raster_nodup 65537 1)]
      intro q
      rw [hmem q, bright_row_foreground, mem_raster]
    obtain ⟨hsx, hsy, hlen⟩ := raster_one_row_sums 65537 65537 (by norm_num)
    have hcount : e.2.count = 65537 := by
      rw [c.count_eq, hperm.length_eq, hlen]; rfl
    have hx : e.2.sum_x = 2147516416 := by
      have h := c.sum_x_eq
      rw [(hperm.map Point.x).sum_eq] at h
      rw [← h] at hsx
      push_cast at hsx
      omega
    have hy : e.2.sum_y = 0 := by
      rw [c.sum_y_eq, (hperm.map Point.y).sum_eq, hsy]
    have hb : blob_of e.2.wrapped = ⟨-32767, 0, 65537⟩ := by
      show (⟨Int.tdiv (wrap32 e.2.sum_x) e.2.count, Int.tdiv (wrap32 e.2.sum_y) e.2.count,
        e.2.count⟩ : Blob) = _
      rw [hcount, hx, hy]
      decide
    rw [hdet, htr]
    have hk : kept 1 65537 (([e].map Prod.snd).map Fill.wrapped) = [⟨-32767, 0, 65537⟩] := by
      simp [kept, hb]
    rw [hk]
    rfl
  · rintro s ⟨hs, comp, hcomp, _, hx, _⟩
    have hnn : 0 ≤ ∑ q ∈ comp, q.x := by
      apply Finset.sum_nonneg
      intro q hq
      exact (connected8_foreground hs ((hcomp q).1 hq)).1.1
    have := Int.tdiv_nonneg hnn (Int.ofNat_nonneg comp.card)
    rw [← hx] at this
    simp only at this
    omega

/-! ## A pixel count that wraps to 0 -/

theorem pixel_step32_no_visited (gray : List Nat)
    (width height step threshold min_area max_area max_blobs : Int) (cap : Nat)
    (blobs : List Blob) :
    pixel_step32 gray width height step threshold min_area max_area max_blobs cap
      ((0 : Nat) : Int) ((0 : Nat) : Int) ⟨[], blobs, 0⟩ = none := by
  unfold pixel_step32
  have h0 : wrap32 (wrap32 (((0 : Nat) : Int) * width) + ((0 : Nat) : Int)) = 0 := by
    rw [Nat.cast_zero, zero_mul, add_zero]
    decide
  simp only [h0]
  rfl

/-- When `size` wraps to 0 the two scratch arrays are empty and the first
access `visited[0]` (line 34) is outside its array (as the writes `queue[0]`
and `visited[0]` of lines 44-45 would be). -/
theorem detect_blobs32_empty_arrays (heap : Nat) (gray : List Nat)
    (width height step threshold min_area max_area : Int) (blobs : List Blob) (max_blobs : Int)
    (hsize : wrap32 (width * height) = 0) (hw : 0 < width) (hh : 0 < height) :
    detect_blobs32 heap gray width height step threshold min_area max_area blobs max_blobs =
      none := by
  unfold detect_blobs32
  rw [hsize]
  have e1 : ((0 : Int) % 18446744073709551616).toNat = 0 := rfl
  have e2 : ((0 : Int) * 8 % 18446744073709551616).toNat = 0 := rfl
  simp only [e1, e2, Nat.not_lt_zero, if_false, List.replicate_zero, Nat.zero_div]
  obtain ⟨k, hk⟩ : ∃ k, height.toNat = k + 1 := ⟨height.toNat - 1, by omega⟩
  obtain ⟨j, hj⟩ : ∃ j, width.toNat = j + 1 := ⟨width.toNat - 1, by omega⟩
  have hrow : scan_row32 gray width height step threshold min_area max_area max_blobs 0
      ⟨[], blobs, 0⟩ 0 = none := by
    unfold scan_row32
    rw [hj, List.range_succ_eq_map, List.foldlM_cons, pixel_step32_no_visited]
    rfl
  rw [hk, List.range_succ_eq_map, List.foldlM_cons, hrow]
  rfl

theorem bright_large_length : (bright_large.length : Int) = 4294967296 := by
  unfold bright_large
  rw [List.length_replicate]
  rfl

/-- C10: every stated precondition holds for the all-bright 65536×65536 image
`bright_large` (sizes not negative, `step ≥ width`, the buffer holds
`step * (height - 1) + width` bytes, the output array holds `max_blobs`
entries), but `width * height` is 2^32 and `size` wraps to 0: the scratch
arrays are empty, the first access `visited[0]` is outside its array (and so
are the writes `queue[0]` and `visited[0]` that follow for the bright pixel),
so the call does not stay inside its arrays. -/
theorem C10_size_overflow_leaves_arrays :
    (0 : Int) ≤ 65536 ∧ (0 : Int) ≤ 65536 ∧ (65536 : Int) ≤ 65536 ∧
    ((0 : Int) < 65536 → (65536 : Int) * (65536 - 1) + 65536 ≤ (bright_large.length : Int)) ∧
    (1 : Int) ≤ (([⟨0, 0, 0⟩] : List Blob).length : Int) ∧
    wrap32 (65536 * 65536) = 0 ∧
    load (List.replicate (wrap32 (65536 * 65536)).toNat false) 0 = none ∧
    detect_blobs32 address_space bright_large 65536 65536 65536 100 1 20 [⟨0, 0, 0⟩] 1 = none := by
  have hsize : wrap32 (65536 * 65536) = 0 := by decide
  refine ⟨by norm_num, by norm_num, by norm_num, ?_, by simp, hsize, ?_, ?_⟩
  · intro _
    rw [bright_large_length]
    norm_num
  · rw [hsize]
    rfl
  · exact detect_blobs32_empty_arrays address_space bright_large 65536 65536 65536 100 1 20
      [⟨0, 0, 0⟩] 1 hsize (by norm_num) (by norm_num)

/-! ## The order of the reported blobs -/

theorem counts_of_isComponent {gray : List Nat} {width height step threshold : Int}
    {s0 : Point} {f : Fill} (h : IsComponent gray width height step threshold s0 f) :
    CountsComponent gray width height step threshold s0 (blob_of f) := by
  refine ⟨h.seed_fg, f.queue.toFinset, ?_, ?_⟩
  · intro q
    rw [List.mem_toFinset]; exact h.mem_iff q
  · show f.count = _
    rw [List.toFinset_card_of_nodup h.nodup, h.count_eq]

theorem describes32_of_isComponent {gray : List Nat} {width height step threshold : Int}
    {s0 : Point} {f : Fill} (h : IsComponent gray width height step threshold s0 f) :
    Describes32 gray width height step threshold s0 (blob_of f.wrapped) := by
  refine ⟨h.seed_fg, f.queue.toFinset, ?_, ?_, ?_, ?_⟩
  · intro q
    rw [List.mem_toFinset]; exact h.mem_iff q
  · show f.count = _
    rw [List.toFinset_card_of_nodup h.nodup, h.count_eq]
  · show Int.tdiv (wrap32 f.sum_x) f.count = _
    rw [List.toFinset_card_of_nodup h.nodup, List.sum_toFinset _ h.nodup, h.sum_x_eq, h.count_eq]
  · show Int.tdiv (wrap32 f.sum_y) f.count = _
    rw [List.toFinset_card_of_nodup h.nodup, List.sum_toFinset _ h.nodup, h.sum_y_eq, h.count_eq]

theorem kept_wrapped_take_eq (min_area max_area : Int) (tr : List (Point × Fill)) (k : Nat) :
    (kept min_area max_area ((tr.map Prod.snd).map Fill.wrapped)).take k =
      (((tr.filter (passes min_area max_area)).take k).map fun e => blob_of e.2.wrapped) := by
  unfold kept
  rw [List.map_map, List.map_map, List.filter_map, List.map_take]
  rfl

/-- C6: the reported blobs are in the raster order of the first pixel of their
components: there is a list of seed pixels, one for each reported blob and in
the same order, such that each seed is the raster-least pixel of its
component, the area of the blob is the pixel count of that component, and each
seed comes strictly before the seeds of the later blobs in row-major order.
This holds in unbounded arithmetic for every image and, for every image that
fits 32-bit arithmetic and the allocator, for the 32-bit code, whose blob is
the one computed from the component with the sums reduced to 32 bits. -/
theorem C6_raster_order (heap : Nat) (gray : List Nat)
    (width height step threshold min_area max_area : Int) (blobs : List Blob) (max_blobs : Int)
    (hok : ImageOk gray width height step) (hout : max_blobs ≤ (blobs.length : Int)) :
    (∃ out seeds,
      detected gray width height step threshold min_area max_area blobs max_blobs = some out ∧
      List.Forall₂
        (fun s b => RasterLeast gray width height step threshold s ∧
          CountsComponent gray width height step threshold s b) seeds out ∧
      seeds.Pairwise RasterLt) ∧
    (Fits heap width height step →
      ∃ out seeds,
        detected32 heap gray width height step threshold min_area max_area blobs max_blobs =
          some out ∧
        List.Forall₂
          (fun s b => RasterLeast gray width height step threshold s ∧
            Describes32 gray width height step threshold s b) seeds out ∧
        seeds.Pairwise RasterLt) := by
  constructor
  · obtain ⟨v, tr, _, _, inv, _, _, _, hdet⟩ :=
      detect_blobs_spec threshold min_area max_area blobs max_blobs hok hout
    have hsub : ((tr.filter (passes min_area max_area)).take max_blobs.toNat).Sublist tr :=
      (List.take_sublist _ _).trans (List.filter_sublist _)
    refine ⟨_, ((tr.filter (passes min_area max_area)).take max_blobs.toNat).map Prod.fst,
      hdet, ?_, ?_⟩
    · rw [kept_take_eq, List.forall₂_map_left_iff, List.forall₂_map_right_iff,
        List.forall₂_same]
      intro e he
      have c := (inv.comps e (hsub.subset he)).2
      exact ⟨c.least, counts_of_isComponent c⟩
    · rw [List.pairwise_map]
      exact List.Pairwise.sublist hsub inv.sorted
  · intro hfit
    obtain ⟨v, tr, _, _, inv, _, _, hdet⟩ :=
      detect_blobs32_spec threshold min_area max_area blobs max_blobs hok hfit hout
    have hsub : ((tr.filter (passes min_area max_area)).take max_blobs.toNat).Sublist tr :=
      (List.take_sublist _ _).trans (List.filter_sublist _)
    refine ⟨_, ((tr.filter (passes min_area max_area)).take max_blobs.toNat).map Prod.fst,
      hdet, ?_, ?_⟩
    · rw [kept_wrapped_take_eq, List.forall₂_map_left_iff, List.forall₂_map_right_iff,
        List.forall₂_same]
      intro e he
      have c := (inv.comps e (hsub.subset he)).2
      exact ⟨c.least, describes32_of_isComponent c⟩
    · rw [List.pairwise_map]
      exact List.Pairwise.sublist hsub inv.sorted

theorem two_dots_ok : ImageOk two_dots 3 3 3 := by
  simp [ImageOk, two_dots]

theorem two_dots_fits : Fits address_space 3 3 3 := by
  refine ⟨by norm_num, by norm_num, ?_⟩
  unfold address_space
  norm_num

theorem two_dots_detected :
    detected two_dots 3 3 3 5 1 4 [⟨0, 0, 0⟩, ⟨0, 0, 0⟩] 2 = some [⟨2, 0, 1⟩, ⟨0, 2, 1⟩] ∧
    detected32 address_space two_dots 3 3 3 5 1 4 [⟨0, 0, 0⟩, ⟨0, 0, 0⟩] 2 =
      some [⟨2, 0, 1⟩, ⟨0, 2, 1⟩] := by
  constructor <;> decide

theorem C6_raster_order_witness :
    ImageOk two_dots 3 3 3 ∧
    (2 : Int) ≤ (([⟨0, 0, 0⟩, ⟨0, 0, 0⟩] : List Blob).length : Int) ∧
    Fits address_space 3 3 3 ∧
    detected two_dots 3 3 3 5 1 4 [⟨0, 0, 0⟩, ⟨0, 0, 0⟩] 2 = some [⟨2, 0, 1⟩, ⟨0, 2, 1⟩] ∧
    detected32 address_space two_dots 3 3 3 5 1 4 [⟨0, 0, 0⟩, ⟨0, 0, 0⟩] 2 =
      some [⟨2, 0, 1⟩, ⟨0, 2, 1⟩] ∧
    (∃ out seeds,
      detected two_dots 3 3 3 5 1 4 [⟨0, 0, 0⟩, ⟨0, 0, 0⟩] 2 = some out ∧
      List.Forall₂
        (fun s b => RasterLeast two_dots 3 3 3 5 s ∧ CountsComponent two_dots 3 3 3 5 s b)
        seeds out ∧
      seeds.Pairwise RasterLt) ∧
    (∃ out seeds,
      detected32 address_space two_dots 3 3 3 5 1 4 [⟨0, 0, 0⟩, ⟨0, 0, 0⟩] 2 = some out ∧
      List.Forall₂
        (fun s b => RasterLeast two_dots 3 3 3 5 s ∧ Describes32 two_dots 3 3 3 5 s b)
        seeds out ∧
      seeds.Pairwise RasterLt) :=
  ⟨two_dots_ok, by simp, two_dots_fits, two_dots_detected.1, two_dots_detected.2,
    (C6_raster_order address_space two_dots 3 3 3 5 1 4 [⟨0, 0, 0⟩, ⟨0, 0, 0⟩] 2 two_dots_ok
      (by simp)).1,
    (C6_raster_order address_space two_dots 3 3 3 5 1 4 [⟨0, 0, 0⟩, ⟨0, 0, 0⟩] 2 two_dots_ok
      (by simp)).2 two_dots_fits⟩

/-! ## The frame hand-off -/

/-- C9: frame 1 is submitted, the worker wakes and copies it, frame 2 is
submitted while the detection on frame 1 runs, and the worker publishes.  The
worker clears `newFrameAvailable` only when it publishes (line 70), after the
detection, so the flag set for frame 2 is lost: the worker is back at its wait
point with the flag clear, the shared frame is frame 2, the worker only ever
copied frame 1, and the worker cannot wake until another frame is submitted. -/
theorem C9_frame_submitted_during_detection_is_lost :
    ∃ s, Pipeline.run Pipeline.start
        [Event.submit 1, Event.wake, Event.submit 2, Event.publish] = some s ∧
      s.worker = WorkerAt.waiting ∧ s.newFrameAvailable = false ∧
      s.sharedGrayFrame = 2 ∧ s.localGray = 1 ∧ s.sharedBlobs = some 1 ∧
      s.step Event.wake = none :=
  ⟨⟨2, false, some 1, false, WorkerAt.waiting, 1⟩, by decide, rfl, rfl, rfl, rfl, rfl, by decide⟩

end IRtracking
